import Mathlib

/-!
# Verification of the course-progress aggregation engine

A shallow embedding of `getUserEnrolments`
(`src/domain/services/get-user-enrolments.ts`): the graph store is a record of
node and edge lists, the Cypher query becomes list comprehensions over it, and
the post-processing (`sortCourse`, modelled from the specification, since
`src/utils` is not part of the staged sources) becomes a total Lean function.
-/

namespace GraphAcademy

/-- A `:User` node as projected by the query: `u { .id, .name, .givenName }`. -/
structure User where
  id : String
  name : String
  givenName : String
deriving DecidableEq

/-- A question reference, `q { .id, .slug }`. -/
structure Question where
  id : String
  slug : String
deriving DecidableEq

/-- A neighbour stub attached to a lesson:
`prev { .slug, .title, link: ... }` / `next { .slug, .title, link: ... }`. -/
structure LessonStub where
  slug : String
  title : String
  link : String
deriving DecidableEq

/-- A lesson as assembled by the query's innermost pattern comprehension. -/
structure Lesson where
  slug : String
  title : String
  completed : Bool
  link : String
  previous : Option LessonStub
  next : Option LessonStub
  questions : List Question
deriving DecidableEq

/-- A module as assembled by the query. -/
structure Module where
  slug : String
  title : String
  link : String
  completed : Bool
  lessons : List Lesson
deriving DecidableEq

/-- A course row as assembled by the query: scalar properties plus the
enrolment-derived fields.  `completed` is `e:CompletedEnrolment`, which is
null (`none`) when the optional enrolment `e` is null. -/
structure CourseWithProgress where
  slug : String
  title : String
  createdAt : Option Nat
  completed : Option Bool
  completedAt : Option Nat
  modules : List Module
deriving DecidableEq

/-- A `:Course` node of the store. -/
structure CourseNode where
  slug : String
  title : String
deriving DecidableEq

/-- A `:Module` node; `course` records the `(c)-[:HAS_MODULE]->(m)` edge. -/
structure ModuleNode where
  id : Nat
  course : String
  slug : String
  title : String
deriving DecidableEq

/-- A `:Lesson` node; `moduleId` records the `(m)-[:HAS_LESSON]->(l)` edge. -/
structure LessonNode where
  id : Nat
  moduleId : Nat
  slug : String
  title : String
deriving DecidableEq

/-- An enrolment node: `(u)-[:HAS_ENROLMENT]->(e)-[:FOR_COURSE]->(c)`.
`isCompleted` models the `:CompletedEnrolment` label; `completedModules` and
`completedLessons` model the `COMPLETED_MODULE` / `COMPLETED_LESSON` edges. -/
structure Enrolment where
  user : String
  course : String
  isCompleted : Bool
  createdAt : Nat
  completedAt : Option Nat
  completedModules : List Nat
  completedLessons : List Nat
deriving DecidableEq

/-- A `(l)-[:HAS_QUESTION]->(q)` edge together with the question node. -/
structure QuestionNode where
  lessonId : Nat
  id : String
  slug : String
deriving DecidableEq

/-- The property-graph store: node lists plus the `NEXT_LESSON` edge list
(pairs of lesson ids, source to target). -/
structure Graph where
  users : List User
  courses : List CourseNode
  modules : List ModuleNode
  lessons : List LessonNode
  enrolments : List Enrolment
  questions : List QuestionNode
  nextLesson : List (Nat × Nat)
deriving DecidableEq

/-- Status label constant (the string interpolated into the query). -/
def STATUS_AVAILABLE : String := "available"

/-- Status label constant (the string interpolated into the query). -/
def STATUS_COMPLETED : String := "completed"

/-- Status label constant (the string interpolated into the query). -/
def STATUS_ENROLLED : String := "enrolled"

/-- `'/courses/'+ c.slug +'/'+ m.slug +'/'+ l.slug`. -/
def lessonLink (cslug mslug lslug : String) : String :=
  "/courses/" ++ cslug ++ "/" ++ mslug ++ "/" ++ lslug

/-- The projection of a neighbour lesson,
`prev { .slug, .title, link: '/courses/'+ c.slug + '/'+ pm.slug +'/'+ prev.slug }`.
Note the link is built from the *current* course's slug. -/
def neighbourStub (cslug : String) (pm : ModuleNode) (p : LessonNode) : LessonStub :=
  { slug := p.slug, title := p.title, link := lessonLink cslug pm.slug p.slug }

/-- The pattern comprehension `[ (l)<-[:NEXT_LESSON]-(prev)<-[:HAS_LESSON]-(pm) | ... ]`:
all matches, in store order.  The pattern does not constrain `pm` to be a
module of the current course. -/
def prevCandidates (g : Graph) (cslug : String) (l : LessonNode) : List LessonStub :=
  (g.nextLesson.filter (fun e => e.2 = l.id)).flatMap (fun e =>
    (g.lessons.filter (fun p => p.id = e.1)).flatMap (fun p =>
      (g.modules.filter (fun pm => pm.id = p.moduleId)).map (fun pm =>
        neighbourStub cslug pm p)))

/-- The pattern comprehension `[ (l)-[:NEXT_LESSON]->(next)<-[:HAS_LESSON]-(nm) | ... ]`. -/
def nextCandidates (g : Graph) (cslug : String) (l : LessonNode) : List LessonStub :=
  (g.nextLesson.filter (fun e => e.1 = l.id)).flatMap (fun e =>
    (g.lessons.filter (fun p => p.id = e.2)).flatMap (fun p =>
      (g.modules.filter (fun pm => pm.id = p.moduleId)).map (fun pm =>
        neighbourStub cslug pm p)))

/-- `previous: [ ... ][0]`: the first match, if any. -/
def prevOf (g : Graph) (cslug : String) (l : LessonNode) : Option LessonStub :=
  (prevCandidates g cslug l).head?

/-- `next: [ ... ][0]`: the first match, if any. -/
def nextOf (g : Graph) (cslug : String) (l : LessonNode) : Option LessonStub :=
  (nextCandidates g cslug l).head?

/-- The lesson projection of the query.  The `completed` flag is
`exists((e)-[:COMPLETED_LESSON]->(l))`, false when `e` is null. -/
def buildLesson (g : Graph) (e : Option Enrolment) (cslug mslug : String)
    (l : LessonNode) : Lesson :=
  { slug := l.slug
    title := l.title
    completed := match e with
      | none => false
      | some en => en.completedLessons.contains l.id
    link := lessonLink cslug mslug l.slug
    previous := prevOf g cslug l
    next := nextOf g cslug l
    questions := (g.questions.filter (fun q => q.lessonId = l.id)).map (fun q =>
      { id := q.id, slug := q.slug }) }

/-- The module projection of the query. -/
def buildModule (g : Graph) (e : Option Enrolment) (cslug : String)
    (m : ModuleNode) : Module :=
  { slug := m.slug
    title := m.title
    link := "/courses/" ++ cslug ++ "/" ++ m.slug
    completed := match e with
      | none => false
      | some en => en.completedModules.contains m.id
    lessons := (g.lessons.filter (fun l => l.moduleId = m.id)).map
      (buildLesson g e cslug m.slug) }

/-- The course projection of the query.  `completed: e:CompletedEnrolment` is
null when `e` is null, hence `Option Bool`. -/
def buildCourse (g : Graph) (e : Option Enrolment) (c : CourseNode) :
    CourseWithProgress :=
  { slug := c.slug
    title := c.title
    createdAt := e.map (·.createdAt)
    completed := e.map (·.isCompleted)
    completedAt := e.bind (·.completedAt)
    modules := (g.modules.filter (fun m => m.course = c.slug)).map
      (buildModule g e c.slug) }

/-- `CASE WHEN e IS NULL THEN 'available' WHEN e:CompletedEnrolment THEN
'completed' ELSE 'enrolled' END`. -/
def statusOf : Option Enrolment → String
  | none => STATUS_AVAILABLE
  | some e => if e.isCompleted then STATUS_COMPLETED else STATUS_ENROLLED

/-- `OPTIONAL MATCH` row semantics: one row per match, or a single null row
when there is no match. -/
def optionalMatch {α : Type} : List α → List (Option α)
  | [] => [none]
  | l => l.map some

/-- The rows produced by the query before aggregation: one per
(matched user, course, optional enrolment), carrying the projected user, the
status label and the assembled course. -/
def queryRows (g : Graph) (uid : String) : List (User × String × CourseWithProgress) :=
  (g.users.filter (fun u => u.id = uid)).flatMap (fun u =>
    g.courses.flatMap (fun c =>
      (optionalMatch (g.enrolments.filter (fun e =>
          e.user = u.id ∧ e.course = c.slug))).map (fun e =>
        (u, statusOf e, buildCourse g e c))))

/-- Accumulator pass behind `firstKeys`: keep the elements not seen yet, in
order, recording what has been seen. -/
def firstKeysAux {α : Type} [DecidableEq α] (seen : List α) : List α → List α
  | [] => []
  | a :: l => if a ∈ seen then firstKeysAux seen l else a :: firstKeysAux (a :: seen) l

/-- The distinct elements of a list in order of first occurrence: the grouping
keys of Cypher's implicit aggregation. -/
def firstKeys {α : Type} [DecidableEq α] (l : List α) : List α :=
  firstKeysAux [] l

/-- `WITH key, collect(value)`: group a list of key-value pairs by key,
keys in order of first occurrence, values in row order. -/
def groupPairs {κ α : Type} [DecidableEq κ] (l : List (κ × α)) : List (κ × List α) :=
  (firstKeys (l.map (·.1))).map (fun k =>
    (k, (l.filter (fun p => p.1 = k)).map (·.2)))

/-- The records returned by the query: `WITH user, status, collect(course)`,
then `WITH user, collect([status, courses])`, then
`RETURN user, apoc.map.fromPairs(pairs)`, one record per user value. -/
def queryRecords (g : Graph) (uid : String) :
    List (User × List (String × List CourseWithProgress)) :=
  groupPairs ((groupPairs ((queryRows g uid).map (fun r =>
    ((r.1, r.2.1), r.2.2)))).map (fun r => (r.1.1, (r.1.2, r.2))))

/-- The course's lessons flattened across its modules, from position `n`
onward, each keeping the index of its owning module (spec 4.2 step 1). -/
def flattenFrom : Nat → List Module → List (Nat × Lesson)
  | _, [] => []
  | n, m :: ms => m.lessons.map (fun l => (n, l)) ++ flattenFrom (n + 1) ms

/-- All lessons of a course with the index of the owning module. -/
def flattenLessons (c : CourseWithProgress) : List (Nat × Lesson) :=
  flattenFrom 0 c.modules

/-- The candidate chain heads: lessons with no `previous` stub (spec 4.2
step 2). -/
def chainHeads (flat : List (Nat × Lesson)) : List (Nat × Lesson) :=
  flat.filter (fun p => p.2.previous.isNone)

/-- One step of the chain walk: follow the current lesson's `next` stub to
the flattened lesson with that link, if any. -/
def chainStep (flat : List (Nat × Lesson)) (p : Nat × Lesson) : Option (Nat × Lesson) :=
  p.2.next.bind (fun stub => flat.find? (fun q => q.2.link = stub.link))

/-- Iterated chain steps. -/
def stepN (flat : List (Nat × Lesson)) : Nat → (Nat × Lesson) → Option (Nat × Lesson)
  | 0, p => some p
  | n + 1, p => (chainStep flat p).bind (stepN flat n)

/-- The chain walk of spec 4.2 step 3: from `cur`, repeatedly follow `next`
stubs, looking each target up in the flattened lesson list by its link
(`chainStep`); the fuel bounds the number of steps so the walk always
terminates. -/
def walkChain (flat : List (Nat × Lesson)) : Nat → (Nat × Lesson) → List (Nat × Lesson)
  | 0, cur => [cur]
  | fuel + 1, cur =>
    match chainStep flat cur with
    | none => [cur]
    | some nxt => cur :: walkChain flat fuel nxt

/-- Placeholder module for out-of-range lookups (never reached: `rebuildCourse`
only indexes with module indices of the course). -/
def emptyModule : Module :=
  { slug := "", title := "", link := "", completed := false, lessons := [] }

/-- Spec 4.2 steps 4 and 5: module order is the order of each module's
first-visited lesson in the walk, modules with no lessons keep their relative
position after all modules that have lessons, and each module's lessons become
its subsequence of the flattened order. -/
def rebuildCourse (c : CourseWithProgress) (order : List (Nat × Lesson)) :
    CourseWithProgress :=
  let used := firstKeys (order.map (·.1))
  let unused := (List.range c.modules.length).filter (fun i => ¬ i ∈ used)
  { c with modules := (used ++ unused).map (fun i =>
      { c.modules.getD i emptyModule with
          lessons := (order.filter (fun p => p.1 = i)).map (·.2) }) }

/-- The data-integrity fault report of spec section 7, naming the failed
course. -/
def chainFault (slug : String) : String :=
  "Inconsistent lesson chain in course " ++ slug

/-- Modelled from the spec: the Order Resolver `sortCourse` (`resolve`) of
spec section 4.2, whose implementation (`src/utils`) is not among the staged
sources.  A course with no lessons is returned unchanged; otherwise the unique
lesson with no `previous` stub is the chain head (zero or several heads is the
data-integrity fault of section 7), the chain is walked via `next` stubs, and
the walk must visit every flattened lesson exactly once (a cycle, a dangling
link mid-chain, or an unreachable lesson would silently drop or duplicate
lessons, which section 7 forbids) — otherwise the course's assembly is
rejected with a fault naming the course. -/
def sortCourse (c : CourseWithProgress) : Except String CourseWithProgress :=
  if flattenLessons c = [] then .ok c else
  match chainHeads (flattenLessons c) with
  | [hd] =>
    let order := walkChain (flattenLessons c) (flattenLessons c).length hd
    if order.length = (flattenLessons c).length ∧ (order.map (·.2.link)).Nodup
    then .ok (rebuildCourse c order)
    else .error (chainFault c.slug)
  | _ => .error (chainFault c.slug)

/-- Modelled from the spec: section 7's recovery policy.  A well-formed course
is replaced by its resolved form; a course whose assembly `sortCourse` rejects
is kept unresolved and its fault is reported, so one faulty course does not
abort the rest of the user's result. -/
def applySort (c : CourseWithProgress) : CourseWithProgress × Option String :=
  match sortCourse c with
  | .ok c' => (c', none)
  | .error msg => (c, some msg)

/-- The result shape of `getUserEnrolments`: either empty (no `user`, no
`enrolments` key) or both fields present.  `faults` is modelled from the spec
(section 7): the data-integrity reports of the courses whose assembly was
rejected. -/
structure EnrolmentsByStatus where
  user : Option User
  enrolments : Option (List (String × List CourseWithProgress))
  faults : List String
deriving DecidableEq

/-- `getUserEnrolments`: run the query; with no records return the empty
result, otherwise take the first record and resolve every course of every
status group. -/
def getUserEnrolments (g : Graph) (uid : String) : EnrolmentsByStatus :=
  match queryRecords g uid with
  | [] => { user := none, enrolments := none, faults := [] }
  | r :: _ =>
    { user := some r.1
      enrolments := some (r.2.map (fun p => (p.1, p.2.map (fun c => (applySort c).1))))
      faults := r.2.flatMap (fun p => p.2.filterMap (fun c => (applySort c).2)) }

/-- The neighbour stub that refers to an assembled lesson (same slug, title
and link). -/
def lessonStubOf (l : Lesson) : LessonStub :=
  { slug := l.slug, title := l.title, link := l.link }

/-- The lessons `ls` form one linked chain in order: each lesson's `next`
stub is the following lesson, each lesson's `previous` stub is the preceding
one, the first has no `previous` and the last has no `next`. -/
def ChainLinked (ls : List Lesson) : Prop :=
  (∀ p ∈ ls.zip ls.tail,
      p.1.next = some (lessonStubOf p.2) ∧ p.2.previous = some (lessonStubOf p.1)) ∧
  (ls.map (fun l => l.previous)).head?.getD none = none ∧
  (ls.map (fun l => l.next)).getLast?.getD none = none

/-- Equal keys occupy one contiguous block: whenever the same key occurs at
two positions, it also occurs everywhere in between. -/
def ContiguousKeys (ks : List Nat) : Prop :=
  ∀ i j k : Fin ks.length, i ≤ j → j ≤ k → ks.get i = ks.get k → ks.get j = ks.get i

instance (ls : List Lesson) : Decidable (ChainLinked ls) := by
  unfold ChainLinked
  infer_instance

instance (ks : List Nat) : Decidable (ContiguousKeys ks) := by
  unfold ContiguousKeys
  infer_instance

/-- Demo store for the status/completion-flag independence claims: an
in-progress enrolment whose learner has individually completed every module
and lesson of the course. -/
def enC6 : Enrolment :=
  { user := "u6", course := "c6", isCompleted := false, createdAt := 5,
    completedAt := none, completedModules := [60], completedLessons := [61, 62] }

/-- Demo store for the status/completion-flag independence claims. -/
def gC6 : Graph :=
  { users := [{ id := "u6", name := "U6", givenName := "G6" }]
    courses := [{ slug := "c6", title := "C6" }]
    modules := [{ id := 60, course := "c6", slug := "m6", title := "M6" }]
    lessons := [{ id := 61, moduleId := 60, slug := "a", title := "A" },
                { id := 62, moduleId := 60, slug := "b", title := "B" }]
    enrolments := [enC6]
    questions := []
    nextLesson := [(61, 62)] }

/-- Demo store with two `NEXT_LESSON` edges into and two out of one lesson. -/
def gC10 : Graph :=
  { users := []
    courses := [{ slug := "c1", title := "C1" }]
    modules := [{ id := 10, course := "c1", slug := "m1", title := "M1" }]
    lessons := [{ id := 1, moduleId := 10, slug := "x", title := "X" },
                { id := 2, moduleId := 10, slug := "p1", title := "P1" },
                { id := 3, moduleId := 10, slug := "p2", title := "P2" },
                { id := 4, moduleId := 10, slug := "n1", title := "N1" },
                { id := 5, moduleId := 10, slug := "n2", title := "N2" }]
    enrolments := []
    questions := []
    nextLesson := [(2, 1), (3, 1), (1, 4), (1, 5)] }

/-- The lesson with two predecessors and two successors in `gC10`. -/
def lessonC10 : LessonNode := { id := 1, moduleId := 10, slug := "x", title := "X" }

/-- Demo store where a `NEXT_LESSON` edge crosses courses: lesson `b` of
course `c2` points at lesson `a` of course `c1`. -/
def gC2 : Graph :=
  { users := []
    courses := [{ slug := "c1", title := "C1" }, { slug := "c2", title := "C2" }]
    modules := [{ id := 1, course := "c1", slug := "m1", title := "M1" },
                { id := 2, course := "c2", slug := "m2", title := "M2" }]
    lessons := [{ id := 11, moduleId := 1, slug := "a", title := "A" },
                { id := 21, moduleId := 2, slug := "b", title := "B" }]
    enrolments := []
    questions := []
    nextLesson := [(21, 11)] }

/-- Demo store whose `NEXT_LESSON` edges all stay inside one course. -/
def gC2W : Graph :=
  { users := []
    courses := [{ slug := "c1", title := "C1" }]
    modules := [{ id := 1, course := "c1", slug := "m1", title := "M1" },
                { id := 2, course := "c1", slug := "m2", title := "M2" }]
    lessons := [{ id := 11, moduleId := 1, slug := "a", title := "A" },
                { id := 21, moduleId := 2, slug := "b", title := "B" }]
    enrolments := []
    questions := []
    nextLesson := [(11, 21)] }

/-- Demo store for fault containment: course `good` has a well-formed chain
(its lessons stored out of order), course `bad` has the cyclic chain
b1 → b2 → b1. -/
def gC8 : Graph :=
  { users := [{ id := "u8", name := "U8", givenName := "G8" }]
    courses := [{ slug := "good", title := "Good" }, { slug := "bad", title := "Bad" }]
    modules := [{ id := 80, course := "good", slug := "gm", title := "GM" },
                { id := 90, course := "bad", slug := "bm", title := "BM" }]
    lessons := [{ id := 82, moduleId := 80, slug := "g2", title := "G2" },
                { id := 81, moduleId := 80, slug := "g1", title := "G1" },
                { id := 91, moduleId := 90, slug := "b1", title := "B1" },
                { id := 92, moduleId := 90, slug := "b2", title := "B2" }]
    enrolments := []
    questions := []
    nextLesson := [(81, 82), (91, 92), (92, 91)] }

/-- Lesson `a` of the interleaved-chain course: first lesson of module `m1`,
chain position 1. -/
def laItl : Lesson :=
  { slug := "a", title := "A", completed := false, link := "/courses/ci/m1/a",
    previous := none,
    next := some { slug := "b", title := "B", link := "/courses/ci/m2/b" },
    questions := [] }

/-- Lesson `b` of the interleaved-chain course: the only lesson of module
`m2`, chain position 2. -/
def lbItl : Lesson :=
  { slug := "b", title := "B", completed := false, link := "/courses/ci/m2/b",
    previous := some { slug := "a", title := "A", link := "/courses/ci/m1/a" },
    next := some { slug := "c", title := "C", link := "/courses/ci/m1/c" },
    questions := [] }

/-- Lesson `c` of the interleaved-chain course: second lesson of module `m1`,
chain position 3. -/
def lcItl : Lesson :=
  { slug := "c", title := "C", completed := false, link := "/courses/ci/m1/c",
    previous := some { slug := "b", title := "B", link := "/courses/ci/m2/b" },
    next := none,
    questions := [] }

/-- A course whose single chain a → b → c interleaves its two modules:
module `m1` holds a and c, module `m2` holds b. -/
def courseItl : CourseWithProgress :=
  { slug := "ci", title := "CI", createdAt := none, completed := none,
    completedAt := none,
    modules := [
      { slug := "m1", title := "M1", link := "/courses/ci/m1", completed := false,
        lessons := [laItl, lcItl] },
      { slug := "m2", title := "M2", link := "/courses/ci/m2", completed := false,
        lessons := [lbItl] }] }

/-- The interleaved course's chain, with owning-module indices. -/
def chainItl : List (Nat × Lesson) := [(0, laItl), (1, lbItl), (0, lcItl)]

/-- Lesson `a` of the cross-module witness course (module `m1`, stored as the
course's second module). -/
def laCx : Lesson :=
  { slug := "a", title := "A", completed := false, link := "/courses/cx/m1/a",
    previous := none,
    next := some { slug := "b", title := "B", link := "/courses/cx/m1/b" },
    questions := [] }

/-- Lesson `b` of the cross-module witness course; its `next` crosses into
module `m2`. -/
def lbCx : Lesson :=
  { slug := "b", title := "B", completed := false, link := "/courses/cx/m1/b",
    previous := some { slug := "a", title := "A", link := "/courses/cx/m1/a" },
    next := some { slug := "c", title := "C", link := "/courses/cx/m2/c" },
    questions := [] }

/-- Lesson `c` of the cross-module witness course (module `m2`). -/
def lcCx : Lesson :=
  { slug := "c", title := "C", completed := false, link := "/courses/cx/m2/c",
    previous := some { slug := "b", title := "B", link := "/courses/cx/m1/b" },
    next := some { slug := "d", title := "D", link := "/courses/cx/m2/d" },
    questions := [] }

/-- Lesson `d` of the cross-module witness course: the chain's tail. -/
def ldCx : Lesson :=
  { slug := "d", title := "D", completed := false, link := "/courses/cx/m2/d",
    previous := some { slug := "c", title := "C", link := "/courses/cx/m2/c" },
    next := none,
    questions := [] }

/-- The cross-module witness course: chain a → b → c → d over modules
M1 = [a,b], M2 = [c,d], with the modules stored in the order [m2, m1]. -/
def courseCx : CourseWithProgress :=
  { slug := "cx", title := "CX", createdAt := none, completed := none,
    completedAt := none,
    modules := [
      { slug := "m2", title := "M2", link := "/courses/cx/m2", completed := false,
        lessons := [lcCx, ldCx] },
      { slug := "m1", title := "M1", link := "/courses/cx/m1", completed := false,
        lessons := [laCx, lbCx] }] }

/-- The witness course's chain: module index 1 (m1) twice, then module
index 0 (m2) twice — contiguous blocks. -/
def chainCx : List (Nat × Lesson) := [(1, laCx), (1, lbCx), (0, lcCx), (0, ldCx)]

/-- Demo store for the grouping claims: user `u4`, a completed enrolment for
course `ca`, no enrolment for course `cb`. -/
def gC4 : Graph :=
  { users := [{ id := "u4", name := "U4", givenName := "G4" }]
    courses := [{ slug := "ca", title := "CA" }, { slug := "cb", title := "CB" }]
    modules := []
    lessons := []
    enrolments := [{ user := "u4", course := "ca", isCompleted := true,
                     createdAt := 1, completedAt := some 2,
                     completedModules := [], completedLessons := [] }]
    questions := []
    nextLesson := [] }

/-- Demo store with a known user but an empty course catalog. -/
def gC9 : Graph :=
  { users := [{ id := "u9", name := "U9", givenName := "G9" }]
    courses := []
    modules := []
    lessons := []
    enrolments := []
    questions := []
    nextLesson := [] }

/-! ## Basic lemmas about the grouping combinators -/

theorem firstKeys_nil {α : Type} [DecidableEq α] : firstKeys ([] : List α) = [] := rfl

theorem firstKeysAux_eq_filter {α : Type} [DecidableEq α] :
    ∀ (l seen : List α),
      firstKeysAux seen l = firstKeysAux [] (l.filter (fun b => ¬ b ∈ seen)) := by
  have H : ∀ (n : Nat) (l : List α), l.length ≤ n → ∀ seen,
      firstKeysAux seen l = firstKeysAux [] (l.filter (fun b => ¬ b ∈ seen)) := by
    intro n
    induction n with
    | zero =>
      intro l hl seen
      rw [List.length_eq_zero.mp (Nat.le_zero.mp hl)]
      rfl
    | succ n ih =>
      intro l hl seen
      cases l with
      | nil => rfl
      | cons a t =>
        rw [List.length_cons, Nat.succ_le_succ_iff] at hl
        by_cases ha : a ∈ seen
        · rw [firstKeysAux, if_pos ha, ih t hl seen]
          congr 1
          rw [List.filter_cons_of_neg (by simpa using ha)]
        · rw [firstKeysAux, if_neg ha, ih t hl (a :: seen)]
          rw [List.filter_cons_of_pos (by simpa using ha)]
          rw [firstKeysAux, if_neg (List.not_mem_nil a),
            ih (t.filter (fun b => ¬ b ∈ seen))
              (le_trans (List.length_filter_le _ t) hl) [a]]
          rw [List.filter_filter]
          congr 1
          refine congrArg (firstKeysAux ([] : List α)) (List.filter_congr (fun x hx => ?_))
          simp only [List.mem_singleton, List.mem_cons, Bool.decide_and,
            decide_not]
          cases hxa : decide (x = a) <;> cases hxs : decide (x ∈ seen) <;>
            simp_all
  exact fun l seen => H l.length l le_rfl seen

theorem firstKeys_cons {α : Type} [DecidableEq α] (a : α) (l : List α) :
    firstKeys (a :: l) = a :: firstKeys (l.filter (fun b => ¬ b = a)) := by
  rw [firstKeys, firstKeysAux, if_neg (List.not_mem_nil a),
    firstKeysAux_eq_filter l [a]]
  rw [firstKeys]
  congr 2
  refine List.filter_congr (fun x hx => ?_)
  simp [List.mem_singleton]

theorem mem_firstKeys {α : Type} [DecidableEq α] :
    ∀ (l : List α) (x : α), x ∈ firstKeys l ↔ x ∈ l := by
  have H : ∀ (n : Nat) (l : List α), l.length ≤ n →
      ∀ x, (x ∈ firstKeys l ↔ x ∈ l) := by
    intro n
    induction n with
    | zero =>
      intro l hl x
      rw [List.length_eq_zero.mp (Nat.le_zero.mp hl)]
      simp [firstKeys_nil]
    | succ n ih =>
      intro l hl x
      cases l with
      | nil => simp [firstKeys_nil]
      | cons a t =>
        rw [firstKeys_cons]
        have ht : (t.filter (fun b => ¬ b = a)).length ≤ n := by
          have := List.length_filter_le (fun b => decide (¬ b = a)) t
          simp only [List.length_cons, Nat.succ_le_succ_iff] at hl
          omega
        rw [List.mem_cons, ih _ ht x, List.mem_filter, List.mem_cons]
        by_cases hx : x = a <;> simp [hx]
  exact fun l => H l.length l le_rfl

theorem firstKeys_nodup {α : Type} [DecidableEq α] :
    ∀ (l : List α), (firstKeys l).Nodup := by
  have H : ∀ (n : Nat) (l : List α), l.length ≤ n → (firstKeys l).Nodup := by
    intro n
    induction n with
    | zero =>
      intro l hl
      rw [List.length_eq_zero.mp (Nat.le_zero.mp hl)]
      simp [firstKeys_nil]
    | succ n ih =>
      intro l hl
      cases l with
      | nil => simp [firstKeys_nil]
      | cons a t =>
        rw [firstKeys_cons]
        have ht : (t.filter (fun b => ¬ b = a)).length ≤ n := by
          have := List.length_filter_le (fun b => decide (¬ b = a)) t
          simp only [List.length_cons, Nat.succ_le_succ_iff] at hl
          omega
        refine List.nodup_cons.mpr ⟨?_, ih _ ht⟩
        intro hmem
        rw [mem_firstKeys] at hmem
        have := List.mem_filter.mp hmem
        simp at this
  exact fun l => H l.length l le_rfl

theorem firstKeys_all_eq {α : Type} [DecidableEq α] {l : List α} {k : α}
    (hne : l ≠ []) (hall : ∀ x ∈ l, x = k) : firstKeys l = [k] := by
  cases l with
  | nil => exact absurd rfl hne
  | cons a t =>
    have ha : a = k := hall a (List.mem_cons_self a t)
    have ht : t.filter (fun b => ¬ b = a) = [] := by
      rw [List.filter_eq_nil_iff]
      intro x hx
      have := hall x (List.mem_cons_of_mem a hx)
      simp [this, ha]
    rw [firstKeys_cons, ht, firstKeys_nil, ha]

theorem groupPairs_const_key {κ α : Type} [DecidableEq κ] {l : List (κ × α)} {k : κ}
    (hne : l ≠ []) (hall : ∀ p ∈ l, p.1 = k) :
    groupPairs l = [(k, l.map (fun p => p.2))] := by
  have hkeys : firstKeys (l.map (fun p => p.1)) = [k] := by
    refine firstKeys_all_eq ?_ ?_
    · simpa using hne
    · intro x hx
      rcases List.mem_map.mp hx with ⟨p, hp, rfl⟩
      exact hall p hp
  have hfilter : l.filter (fun p => p.1 = k) = l :=
    List.filter_eq_self.mpr (fun p hp => by simpa using hall p hp)
  simp [groupPairs, hkeys, hfilter]

theorem optionalMatch_ne_nil {α : Type} (l : List α) : optionalMatch l ≠ [] := by
  cases l <;> simp [optionalMatch]

/-! ## C3: the status classifier -/

/-- C3: the status label is a pure three-way function of the optional
enrolment: absent maps to `available`, a `CompletedEnrolment` maps to
`completed`, any other enrolment maps to `enrolled`, and no other label is
ever produced. -/
theorem statusOf_trichotomy : ∀ e : Option Enrolment,
    (statusOf e = STATUS_AVAILABLE ↔ e = none) ∧
    (statusOf e = STATUS_COMPLETED ↔ ∃ en, e = some en ∧ en.isCompleted = true) ∧
    (statusOf e = STATUS_ENROLLED ↔ ∃ en, e = some en ∧ en.isCompleted = false) ∧
    (statusOf e = STATUS_AVAILABLE ∨ statusOf e = STATUS_COMPLETED ∨
      statusOf e = STATUS_ENROLLED) := by
  intro e
  cases e with
  | none =>
    refine ⟨by simp [statusOf], ?_, ?_, Or.inl rfl⟩ <;>
      simp [statusOf, STATUS_AVAILABLE, STATUS_COMPLETED, STATUS_ENROLLED]
  | some en =>
    cases hb : en.isCompleted <;>
      simp [statusOf, hb, STATUS_AVAILABLE, STATUS_COMPLETED, STATUS_ENROLLED]

/-! ## C6: course completion comes from the enrolment tag alone -/

/-- C6: a course's `completed` field and its status label depend only on the
enrolment's sub-type tag, never on the per-module or per-lesson completion
edges, which are independent existence checks — so an `enrolled` course can
have every module and lesson individually flagged complete, as the demo
store shows. -/
theorem course_completed_from_tag_only :
    (∀ g e c, (buildCourse g e c).completed = e.map (fun en => en.isCompleted)) ∧
    (∀ en ms ls, statusOf (some { en with completedModules := ms, completedLessons := ls }) =
      statusOf (some en)) ∧
    (∀ g (e : Enrolment) c ms ls, (buildCourse g
      (some { e with completedModules := ms, completedLessons := ls }) c).completed =
      some e.isCompleted) ∧
    (∀ g en cs msl l, (buildLesson g (some en) cs msl l).completed =
      en.completedLessons.contains l.id) ∧
    (∀ g cs msl l, (buildLesson g none cs msl l).completed = false) ∧
    (∀ g en cs m, (buildModule g (some en) cs m).completed =
      en.completedModules.contains m.id) ∧
    (statusOf (some enC6) = STATUS_ENROLLED ∧
      ∀ m ∈ (buildCourse gC6 (some enC6) { slug := "c6", title := "C6" }).modules,
        m.completed = true ∧ ∀ l ∈ m.lessons, l.completed = true) := by
  refine ⟨fun g e c => rfl, fun en ms ls => rfl, fun g e c ms ls => rfl,
    fun g en cs msl l => rfl, fun g cs msl l => rfl, fun g en cs m => rfl, by decide⟩

/-! ## C10: neighbour stubs take the first match -/

/-- C10: `previous`/`next` hold at most one stub each: the `[0]` index takes
the head of the candidate list, so with several `NEXT_LESSON` edges in or out
of a lesson the first match is attached (and assembly raises no error), as the
demo store with two predecessors and two successors shows. -/
theorem neighbour_first_match :
    (∀ g cs l, prevOf g cs l = (prevCandidates g cs l).head? ∧
        nextOf g cs l = (nextCandidates g cs l).head?) ∧
    (∀ g cs l stb, prevOf g cs l = some stb → stb ∈ prevCandidates g cs l) ∧
    (∀ g cs l stb, nextOf g cs l = some stb → stb ∈ nextCandidates g cs l) ∧
    ((prevCandidates gC10 "c1" lessonC10).length = 2 ∧
      (nextCandidates gC10 "c1" lessonC10).length = 2 ∧
      prevOf gC10 "c1" lessonC10 =
        some { slug := "p1", title := "P1", link := "/courses/c1/m1/p1" } ∧
      nextOf gC10 "c1" lessonC10 =
        some { slug := "n1", title := "N1", link := "/courses/c1/m1/n1" }) := by
  refine ⟨fun g cs l => ⟨rfl, rfl⟩, ?_, ?_, by decide⟩
  · intro g cs l stb h
    exact List.mem_of_mem_head? (Option.mem_def.mpr h)
  · intro g cs l stb h
    exact List.mem_of_mem_head? (Option.mem_def.mpr h)

/-! ## C5 and C9: the empty result -/

theorem queryRecords_eq_nil {g : Graph} {uid : String}
    (h : queryRows g uid = []) : queryRecords g uid = [] := by
  simp [queryRecords, h, groupPairs, firstKeys_nil]

/-- C5: an unknown user identifier yields the empty result — no `user` key,
no `enrolments` key, no failure. -/
theorem getUserEnrolments_unknown_user (g : Graph) (uid : String)
    (h : ∀ u ∈ g.users, u.id ≠ uid) :
    getUserEnrolments g uid = { user := none, enrolments := none, faults := [] } := by
  have hf : g.users.filter (fun u => u.id = uid) = [] :=
    List.filter_eq_nil_iff.mpr (fun u hu => by simpa using h u hu)
  have hrows : queryRows g uid = [] := by simp [queryRows, hf]
  simp [getUserEnrolments, queryRecords_eq_nil hrows]

/-- Witness for C5 at a concrete store and unknown identifier. -/
theorem getUserEnrolments_unknown_user_witness :
    getUserEnrolments gC4 "nobody" = { user := none, enrolments := none, faults := [] } :=
  getUserEnrolments_unknown_user gC4 "nobody" (by decide)

/-- C9: with a known user but an empty course catalog the query joins users
and courses and yields zero rows, so the result is the same empty object as
for an unknown user. -/
theorem getUserEnrolments_empty_catalog (g : Graph) (uid : String)
    (hu : ∃ u ∈ g.users, u.id = uid) (hc : g.courses = []) :
    getUserEnrolments g uid = { user := none, enrolments := none, faults := [] } := by
  have hrows : queryRows g uid = [] := by simp [queryRows, hc]
  simp [getUserEnrolments, queryRecords_eq_nil hrows]

/-- Witness for C9 at a concrete store with one user and no courses. -/
theorem getUserEnrolments_empty_catalog_witness :
    getUserEnrolments gC9 "u9" = { user := none, enrolments := none, faults := [] } :=
  getUserEnrolments_empty_catalog gC9 "u9" (by decide) rfl

/-! ## C2: neighbour stubs and course scope -/

/-- Counterexample to C2 as stated: in `gC2` the `NEXT_LESSON` edge from
lesson `b` (owned by module `m2` of course `c2`) into lesson `a` of course
`c1` makes the builder attach a `previous` stub for `b` to `a` — a neighbour
whose owning module lies outside the current course (the stub's link is even
built with the current course's slug). -/
theorem neighbour_stub_cross_course_cex :
    (buildCourse gC2 none { slug := "c1", title := "C1" }).modules.map
        (fun m => m.lessons.map (fun l => l.previous)) =
      [[some { slug := "b", title := "B", link := "/courses/c1/m2/b" }]] ∧
    (∃ p ∈ gC2.lessons, p.slug = "b" ∧
      ∃ pm ∈ gC2.modules, pm.id = p.moduleId ∧ pm.course = "c2") ∧
    (∀ pm ∈ gC2.modules, pm.course = "c1" →
      ∀ p ∈ gC2.lessons, p.moduleId = pm.id → p.slug ≠ "b") := by
  decide

/-- C2 amended: the query's neighbour patterns do not restrict the owning
module to the current course; the scoping holds only under the invariant that
every `NEXT_LESSON` edge connects lessons whose owning modules belong to the
same course.  Under that invariant, every attached `previous`/`next` stub
refers to a lesson owned by a module of the current course. -/
theorem neighbour_stubs_same_course (g : Graph) (c : CourseNode)
    (m : ModuleNode) (l : LessonNode)
    (hedges : ∀ e ∈ g.nextLesson, ∀ a ∈ g.lessons, ∀ b ∈ g.lessons,
      a.id = e.1 → b.id = e.2 → ∀ ma ∈ g.modules, ∀ mb ∈ g.modules,
        ma.id = a.moduleId → mb.id = b.moduleId → ma.course = mb.course)
    (hm : m ∈ g.modules) (hmc : m.course = c.slug)
    (hl : l ∈ g.lessons) (hlm : l.moduleId = m.id) :
    (∀ stb, prevOf g c.slug l = some stb →
      ∃ p ∈ g.lessons, ∃ pm ∈ g.modules, pm.id = p.moduleId ∧
        pm.course = c.slug ∧ stb = neighbourStub c.slug pm p) ∧
    (∀ stb, nextOf g c.slug l = some stb →
      ∃ p ∈ g.lessons, ∃ pm ∈ g.modules, pm.id = p.moduleId ∧
        pm.course = c.slug ∧ stb = neighbourStub c.slug pm p) := by
  constructor
  · intro stb h
    have hmem : stb ∈ prevCandidates g c.slug l :=
      List.mem_of_mem_head? (Option.mem_def.mpr h)
    simp only [prevCandidates, List.mem_flatMap, List.mem_filter, List.mem_map,
      decide_eq_true_eq] at hmem
    rcases hmem with ⟨e, ⟨heMem, heTgt⟩, p, ⟨hpMem, hpId⟩, pm, ⟨hpmMem, hpmId⟩, rfl⟩
    refine ⟨p, hpMem, pm, hpmMem, hpmId, ?_, rfl⟩
    have := hedges e heMem p hpMem l hl hpId heTgt.symm pm hpmMem m hm hpmId hlm.symm
    rw [this, hmc]
  · intro stb h
    have hmem : stb ∈ nextCandidates g c.slug l :=
      List.mem_of_mem_head? (Option.mem_def.mpr h)
    simp only [nextCandidates, List.mem_flatMap, List.mem_filter, List.mem_map,
      decide_eq_true_eq] at hmem
    rcases hmem with ⟨e, ⟨heMem, heSrc⟩, p, ⟨hpMem, hpId⟩, pm, ⟨hpmMem, hpmId⟩, rfl⟩
    refine ⟨p, hpMem, pm, hpmMem, hpmId, ?_, rfl⟩
    have := hedges e heMem l hl p hpMem heSrc.symm hpId m hm pm hpmMem hlm.symm hpmId
    rw [← this, hmc]

/-- Witness for the amended C2 at a concrete in-course store. -/
theorem neighbour_stubs_same_course_witness :
    (∀ stb, prevOf gC2W "c1" { id := 21, moduleId := 2, slug := "b", title := "B" } = some stb →
      ∃ p ∈ gC2W.lessons, ∃ pm ∈ gC2W.modules, pm.id = p.moduleId ∧
        pm.course = "c1" ∧ stb = neighbourStub "c1" pm p) ∧
    (∀ stb, nextOf gC2W "c1" { id := 21, moduleId := 2, slug := "b", title := "B" } = some stb →
      ∃ p ∈ gC2W.lessons, ∃ pm ∈ gC2W.modules, pm.id = p.moduleId ∧
        pm.course = "c1" ∧ stb = neighbourStub "c1" pm p) :=
  neighbour_stubs_same_course gC2W { slug := "c1", title := "C1" }
    { id := 2, course := "c1", slug := "m2", title := "M2" }
    { id := 21, moduleId := 2, slug := "b", title := "B" }
    (by decide) (by decide) rfl (by decide) rfl

/-! ## C4: status keys are present exactly when occupied -/

theorem flatMap_singleton_eq_map {α β : Type} (f : α → β) (l : List α) :
    l.flatMap (fun a => [f a]) = l.map f := by
  induction l with
  | nil => rfl
  | cons a t ih => simp [List.flatMap_cons, ih]

theorem firstKeys_ne_nil {α : Type} [DecidableEq α] {l : List α} (h : l ≠ []) :
    firstKeys l ≠ [] := by
  cases l with
  | nil => exact absurd rfl h
  | cons a t => rw [firstKeys_cons]; exact List.cons_ne_nil _ _

theorem groupPairs_keys_sub {κ α : Type} [DecidableEq κ] (l : List (κ × α)) :
    ∀ q ∈ groupPairs l, q.1 ∈ l.map (fun p => p.1) := by
  intro q hq
  rcases List.mem_map.mp hq with ⟨k, hk, rfl⟩
  exact (mem_firstKeys _ _).mp hk

theorem groupPairs_keys_mem {κ α : Type} [DecidableEq κ] (l : List (κ × α)) (k : κ)
    (hk : k ∈ l.map (fun p => p.1)) : ∃ vs, (k, vs) ∈ groupPairs l := by
  exact ⟨_, List.mem_map.mpr ⟨k, (mem_firstKeys _ _).mpr hk, rfl⟩⟩

/-- C4: the enrolments mapping carries a key for a status label exactly when
some row of the query carries that label — a label with zero courses is
absent, not bound to an empty list — and a known user with no enrolments gets
every catalog course under `available` with no other key. -/
theorem enrolments_keys_iff_occupied (g : Graph) (uid : String) (u : User)
    (hu : g.users.filter (fun x => x.id = uid) = [u]) :
    (∀ s : String,
        s ∈ ((getUserEnrolments g uid).enrolments.getD []).map (fun p => p.1) ↔
          ∃ r ∈ queryRows g uid, r.2.1 = s) ∧
    (g.enrolments.filter (fun e => e.user = uid) = [] →
      (getUserEnrolments g uid).enrolments =
        if g.courses = [] then none
        else some [(STATUS_AVAILABLE,
          g.courses.map (fun c => (applySort (buildCourse g none c)).1))]) := by
  have huid : u.id = uid := by
    have hmem : u ∈ g.users.filter (fun x => x.id = uid) := by
      rw [hu]; exact List.mem_singleton_self u
    simpa using (List.mem_filter.mp hmem).2
  have hrows : queryRows g uid = g.courses.flatMap (fun c =>
      (optionalMatch (g.enrolments.filter (fun e =>
        e.user = u.id ∧ e.course = c.slug))).map (fun e =>
          (u, statusOf e, buildCourse g e c))) := by
    rw [queryRows, hu, List.flatMap_singleton]
  by_cases hc : g.courses = []
  · have hrows0 : queryRows g uid = [] := by rw [hrows, hc]; rfl
    have hres : getUserEnrolments g uid =
        { user := none, enrolments := none, faults := [] } := by
      simp [getUserEnrolments, queryRecords_eq_nil hrows0]
    refine ⟨?_, ?_⟩
    · intro s
      rw [hres, hrows0]
      simp
    · intro _
      rw [hres, if_pos hc]
  · -- the catalog is non-empty, so there is at least one row, all carrying u
    have hrne : queryRows g uid ≠ [] := by
      rw [hrows]
      cases hcc : g.courses with
      | nil => exact absurd hcc hc
      | cons c cs =>
        rw [List.flatMap_cons]
        intro hnil
        rcases List.append_eq_nil.mp hnil with ⟨h1, _⟩
        exact optionalMatch_ne_nil _ (List.map_eq_nil_iff.mp h1)
    have hall1 : ∀ r ∈ queryRows g uid, r.1 = u := by
      rw [hrows]
      intro r hr
      rcases List.mem_flatMap.mp hr with ⟨c, _, hr2⟩
      rcases List.mem_map.mp hr2 with ⟨e, _, rfl⟩
      rfl
    have hl2ne : (groupPairs ((queryRows g uid).map (fun r =>
        ((r.1, r.2.1), r.2.2)))).map (fun r => (r.1.1, (r.1.2, r.2))) ≠ [] := by
      rw [Ne, List.map_eq_nil_iff, groupPairs, List.map_eq_nil_iff]
      exact firstKeys_ne_nil (by simpa [Ne, List.map_eq_nil_iff] using hrne)
    have hall2 : ∀ p ∈ (groupPairs ((queryRows g uid).map (fun r =>
        ((r.1, r.2.1), r.2.2)))).map (fun r => (r.1.1, (r.1.2, r.2))), p.1 = u := by
      intro p hp
      rcases List.mem_map.mp hp with ⟨q, hq, rfl⟩
      have hqk := groupPairs_keys_sub _ q hq
      rw [List.map_map] at hqk
      rcases List.mem_map.mp hqk with ⟨r, hr, hkey⟩
      have : q.1.1 = r.1 := by rw [← hkey]; rfl
      rw [this]
      exact hall1 r hr
    have hrec : queryRecords g uid =
        [(u, ((groupPairs ((queryRows g uid).map (fun r =>
          ((r.1, r.2.1), r.2.2)))).map (fun r => (r.1.1, (r.1.2, r.2)))).map
            (fun p => p.2))] :=
      groupPairs_const_key hl2ne hall2
    have hres : getUserEnrolments g uid =
        { user := some u
          enrolments := some ((((groupPairs ((queryRows g uid).map (fun r =>
            ((r.1, r.2.1), r.2.2)))).map (fun r => (r.1.1, (r.1.2, r.2)))).map
              (fun p => p.2)).map (fun p => (p.1, p.2.map (fun c => (applySort c).1))))
          faults := (((groupPairs ((queryRows g uid).map (fun r =>
            ((r.1, r.2.1), r.2.2)))).map (fun r => (r.1.1, (r.1.2, r.2)))).map
              (fun p => p.2)).flatMap (fun p => p.2.filterMap (fun c => (applySort c).2)) } := by
      rw [getUserEnrolments, hrec]
    refine ⟨?_, ?_⟩
    · intro s
      rw [hres]
      constructor
      · intro hs
        simp only [Option.getD_some, List.map_map] at hs
        rcases List.mem_map.mp hs with ⟨q, hq, hkey⟩
        have hqk := groupPairs_keys_sub _ q hq
        rw [List.map_map] at hqk
        rcases List.mem_map.mp hqk with ⟨r, hr, hkey2⟩
        refine ⟨r, hr, ?_⟩
        have h2 : q.1.2 = r.2.1 := by rw [← hkey2]; rfl
        rw [← hkey, ← h2]
        rfl
      · intro ⟨r, hr, hs⟩
        simp only [Option.getD_some, List.map_map]
        have hkmem : (r.1, r.2.1) ∈ ((queryRows g uid).map (fun r =>
            ((r.1, r.2.1), r.2.2))).map (fun p => p.1) := by
          rw [List.map_map]
          exact List.mem_map.mpr ⟨r, hr, rfl⟩
        rcases groupPairs_keys_mem _ _ hkmem with ⟨vs, hvs⟩
        refine List.mem_map.mpr ⟨((r.1, r.2.1), vs), hvs, ?_⟩
        simpa using hs
    · intro hen
      have hpair : ∀ c : CourseNode, g.enrolments.filter (fun e =>
          e.user = u.id ∧ e.course = c.slug) = [] := by
        intro c
        rw [List.filter_eq_nil_iff]
        intro e he hpred
        have he2 : e.user = uid := by
          rw [← huid]
          simpa using (of_decide_eq_true hpred).1
        have := List.filter_eq_nil_iff.mp hen e he
        simp [he2] at this
      have hrows2 : queryRows g uid = g.courses.map (fun c =>
          (u, STATUS_AVAILABLE, buildCourse g none c)) := by
        rw [hrows, ← flatMap_singleton_eq_map]
        refine List.flatMap_congr (fun c _ => ?_)
        rw [hpair c]
        rfl
      rw [hres, if_neg hc]
      have hgp : groupPairs ((queryRows g uid).map (fun r =>
          ((r.1, r.2.1), r.2.2))) =
          [((u, STATUS_AVAILABLE),
            g.courses.map (fun c => buildCourse g none c))] := by
        rw [hrows2, List.map_map]
        have := groupPairs_const_key (l := g.courses.map
          ((fun r : User × String × CourseWithProgress => ((r.1, r.2.1), r.2.2)) ∘
            (fun c => (u, STATUS_AVAILABLE, buildCourse g none c))))
          (k := (u, STATUS_AVAILABLE))
          (by simpa [Ne, List.map_eq_nil_iff] using hc)
          (by intro p hp; rcases List.mem_map.mp hp with ⟨c, _, rfl⟩; rfl)
        rw [this, List.map_map]
        rfl
      rw [hgp]
      simp [List.map_map, Function.comp]

/-- Witness for C4 at a concrete store (one completed enrolment, one
untouched course). -/
theorem enrolments_keys_iff_occupied_witness :
    (∀ s : String,
        s ∈ ((getUserEnrolments gC4 "u4").enrolments.getD []).map (fun p => p.1) ↔
          ∃ r ∈ queryRows gC4 "u4", r.2.1 = s) ∧
    (gC4.enrolments.filter (fun e => e.user = "u4") = [] →
      (getUserEnrolments gC4 "u4").enrolments =
        if gC4.courses = [] then none
        else some [(STATUS_AVAILABLE,
          gC4.courses.map (fun c => (applySort (buildCourse gC4 none c)).1))]) :=
  enrolments_keys_iff_occupied gC4 "u4"
    { id := "u4", name := "U4", givenName := "G4" } (by decide)

/-! ## Lemmas about the chain walk -/

theorem eq_of_link_nodup {ls : List (Nat × Lesson)}
    (hnd : (ls.map (fun p => p.2.link)).Nodup)
    {a b : Nat × Lesson} (ha : a ∈ ls) (hb : b ∈ ls)
    (h : a.2.link = b.2.link) : a = b :=
  List.inj_on_of_nodup_map hnd ha hb h

theorem find?_link_of_mem {ls : List (Nat × Lesson)}
    (hnd : (ls.map (fun p => p.2.link)).Nodup)
    {x : Nat × Lesson} (hx : x ∈ ls) {L : String} (hL : x.2.link = L) :
    ls.find? (fun q => q.2.link = L) = some x := by
  have hsome : (ls.find? (fun q => q.2.link = L)).isSome :=
    List.find?_isSome.mpr ⟨x, hx, by simp [hL]⟩
  rcases Option.isSome_iff_exists.mp hsome with ⟨y, hy⟩
  have hyMem := List.mem_of_find?_eq_some hy
  have hyL : y.2.link = L := by simpa using List.find?_some hy
  rw [hy]
  exact congrArg some (eq_of_link_nodup hnd hyMem hx (by rw [hyL, hL]))

theorem walkChain_head (ls : List (Nat × Lesson)) (fuel : Nat) (cur : Nat × Lesson) :
    ∃ t, walkChain ls fuel cur = cur :: t := by
  cases fuel with
  | zero => exact ⟨[], rfl⟩
  | succ n =>
    cases hst : chainStep ls cur with
    | none => exact ⟨[], by simp only [walkChain, hst]⟩
    | some nxt => exact ⟨walkChain ls n nxt, by simp only [walkChain, hst]⟩

theorem walkChain_ne_nil (ls : List (Nat × Lesson)) (fuel : Nat) (cur : Nat × Lesson) :
    walkChain ls fuel cur ≠ [] := by
  rcases walkChain_head ls fuel cur with ⟨t, ht⟩
  rw [ht]
  exact List.cons_ne_nil _ _

theorem chainStep_mem {ls : List (Nat × Lesson)} {cur nxt : Nat × Lesson}
    (h : chainStep ls cur = some nxt) : nxt ∈ ls := by
  rw [chainStep] at h
  cases hnx : cur.2.next with
  | none => rw [hnx] at h; exact absurd h (by simp)
  | some stub =>
    rw [hnx, Option.some_bind] at h
    exact List.mem_of_find?_eq_some h

theorem walkChain_subset (ls : List (Nat × Lesson)) :
    ∀ (fuel : Nat) (cur : Nat × Lesson), cur ∈ ls →
      ∀ p ∈ walkChain ls fuel cur, p ∈ ls := by
  intro fuel
  induction fuel with
  | zero =>
    intro cur hcur p hp
    rw [walkChain] at hp
    rwa [List.mem_singleton.mp hp]
  | succ n ih =>
    intro cur hcur p hp
    cases hst : chainStep ls cur with
    | none =>
      simp only [walkChain, hst] at hp
      rwa [List.mem_singleton.mp hp]
    | some nxt =>
      simp only [walkChain, hst] at hp
      rcases List.mem_cons.mp hp with rfl | hp2
      · exact hcur
      · exact ih nxt (chainStep_mem hst) p hp2

theorem walkChain_consecutive (ls : List (Nat × Lesson)) :
    ∀ (fuel : Nat) (cur : Nat × Lesson) (j : Nat)
      (hj : j + 1 < (walkChain ls fuel cur).length),
      chainStep ls ((walkChain ls fuel cur)[j]) =
        some ((walkChain ls fuel cur)[j + 1]) := by
  intro fuel
  induction fuel with
  | zero =>
    intro cur j hj
    rw [walkChain] at hj
    simp at hj
  | succ n ih =>
    intro cur j hj
    cases hst : chainStep ls cur with
    | none =>
      simp only [walkChain, hst] at hj
      simp at hj
    | some nxt =>
      simp only [walkChain, hst] at hj ⊢
      cases j with
      | zero =>
        rcases walkChain_head ls n nxt with ⟨t, ht⟩
        simp only [List.getElem_cons_zero, List.getElem_cons_succ]
        simp only [ht, List.getElem_cons_zero]
        exact hst
      | succ j' =>
        rw [List.length_cons] at hj
        simp only [List.getElem_cons_succ]
        exact ih nxt j' (by omega)

theorem walkChain_last_step (ls : List (Nat × Lesson)) :
    ∀ (fuel : Nat) (cur : Nat × Lesson),
      (walkChain ls fuel cur).length ≤ fuel →
      chainStep ls ((walkChain ls fuel cur).getLast (walkChain_ne_nil ls fuel cur)) =
        none := by
  intro fuel
  induction fuel with
  | zero =>
    intro cur hlen
    rw [walkChain] at hlen
    simp at hlen
  | succ n ih =>
    intro cur hlen
    have hgoal : ∀ (h : (walkChain ls (n + 1) cur) ≠ []),
        chainStep ls ((walkChain ls (n + 1) cur).getLast h) = none := by
      intro h
      cases hst : chainStep ls cur with
      | none =>
        revert h
        simp only [walkChain, hst]
        intro h
        simp only [List.getLast_singleton]
        exact hst
      | some nxt =>
        revert h
        simp only [walkChain, hst] at hlen ⊢
        intro h
        rw [List.getLast_cons (walkChain_ne_nil ls n nxt)]
        rw [List.length_cons] at hlen
        exact ih nxt (by omega)
    exact hgoal _

/-! ## Inversion of the resolver's branches -/

theorem sortCourse_error_eq {c : CourseWithProgress} {msg : String}
    (h : sortCourse c = Except.error msg) : msg = chainFault c.slug := by
  rw [sortCourse] at h
  by_cases hne : flattenLessons c = []
  · rw [if_pos hne] at h
    exact absurd h (by simp)
  · rw [if_neg hne] at h
    cases hh : chainHeads (flattenLessons c) with
    | nil => rw [hh] at h; simpa using h.symm
    | cons hd t =>
      cases t with
      | nil =>
        rw [hh] at h
        simp only at h
        by_cases hcond : (walkChain (flattenLessons c) (flattenLessons c).length hd).length =
            (flattenLessons c).length ∧
            ((walkChain (flattenLessons c) (flattenLessons c).length hd).map
              (fun p => p.2.link)).Nodup
        · rw [if_pos hcond] at h
          exact absurd h (by simp)
        · rw [if_neg hcond] at h
          simpa using h.symm
      | cons hd2 t2 => rw [hh] at h; simpa using h.symm

theorem sortCourse_ok_inv {c c' : CourseWithProgress}
    (hne : flattenLessons c ≠ []) (h : sortCourse c = Except.ok c') :
    ∃ hd, chainHeads (flattenLessons c) = [hd] ∧
      (walkChain (flattenLessons c) (flattenLessons c).length hd).length =
        (flattenLessons c).length ∧
      ((walkChain (flattenLessons c) (flattenLessons c).length hd).map
        (fun p => p.2.link)).Nodup ∧
      c' = rebuildCourse c (walkChain (flattenLessons c) (flattenLessons c).length hd) := by
  rw [sortCourse, if_neg hne] at h
  cases hh : chainHeads (flattenLessons c) with
  | nil => rw [hh] at h; exact absurd h (by simp)
  | cons hd t =>
    cases t with
    | nil =>
      rw [hh] at h
      simp only at h
      by_cases hcond : (walkChain (flattenLessons c) (flattenLessons c).length hd).length =
          (flattenLessons c).length ∧
          ((walkChain (flattenLessons c) (flattenLessons c).length hd).map
            (fun p => p.2.link)).Nodup
      · rw [if_pos hcond] at h
        refine ⟨hd, rfl, hcond.1, hcond.2, ?_⟩
        simpa using h.symm
      · rw [if_neg hcond] at h
        exact absurd h (by simp)
    | cons hd2 t2 => rw [hh] at h; exact absurd h (by simp)

theorem sortCourse_ok_of_nil {c : CourseWithProgress}
    (hnil : flattenLessons c = []) : sortCourse c = Except.ok c := by
  rw [sortCourse, if_pos hnil]

theorem chainHeads_single_mem {flat : List (Nat × Lesson)} {hd : Nat × Lesson}
    (h : chainHeads flat = [hd]) : hd ∈ flat := by
  have : hd ∈ chainHeads flat := by rw [h]; exact List.mem_singleton_self hd
  exact (List.mem_filter.mp this).1

theorem sortCourse_cycle_error (c : CourseWithProgress) (p : Nat × Lesson) (n : Nat)
    (hp : p ∈ flattenLessons c) (hn : 0 < n)
    (hcyc : stepN (flattenLessons c) n p = some p) :
    sortCourse c = Except.error (chainFault c.slug) := by
  have hne : flattenLessons c ≠ [] := List.ne_nil_of_mem hp
  cases hs : sortCourse c with
  | error msg => rw [sortCourse_error_eq hs]
  | ok c' =>
    exfalso
    rcases sortCourse_ok_inv hne hs with ⟨hd, hheads, hlen, hnd, _⟩
    set flat := flattenLessons c with hflat
    set ord := walkChain flat flat.length hd with hord
    have hsub : ∀ q ∈ ord, q ∈ flat :=
      walkChain_subset flat flat.length hd (chainHeads_single_mem hheads)
    have hond : ord.Nodup := List.Nodup.of_map _ hnd
    have hperm : ord.Perm flat :=
      (List.Nodup.subperm hond hsub).perm_of_length_le (le_of_eq hlen.symm)
    have hpo : p ∈ ord := hperm.mem_iff.mpr hp
    rcases List.mem_iff_getElem.mp hpo with ⟨i, hi, hpi⟩
    have hlenpos : 0 < ord.length := by omega
    have hstep_mid : ∀ j (hj : j + 1 < ord.length),
        chainStep flat (ord[j]) = some (ord[j + 1]) :=
      fun j hj => walkChain_consecutive flat flat.length hd j hj
    have hstep_last : chainStep flat (ord[ord.length - 1]) = none := by
      have := walkChain_last_step flat flat.length hd (le_of_eq hlen)
      rwa [List.getLast_eq_getElem] at this
    have hstepN : ∀ (k j : Nat) (hjk : j + k < ord.length),
        stepN flat k (ord[j]) = some (ord[j + k]) := by
      intro k
      induction k with
      | zero => intro j hjk; rw [stepN]; simp
      | succ k ih =>
        intro j hjk
        rw [stepN, hstep_mid j (by omega), Option.some_bind]
        have heq : j + 1 + k = j + (k + 1) := by omega
        have := ih (j + 1) (by omega)
        rw [this]
        congr 1
        exact getElem_congr heq
    have hstepN_none : ∀ (k j : Nat), 0 < k → ∀ (hj : j < ord.length), ord.length ≤ j + k →
        stepN flat k (ord[j]) = none := by
      intro k
      induction k with
      | zero => intro j h0 _ _; omega
      | succ k ih =>
        intro j h0 hj hjlen
        rw [stepN]
        by_cases hj1 : j + 1 < ord.length
        · rw [hstep_mid j hj1, Option.some_bind]
          have hk0 : 0 < k := by omega
          exact ih (j + 1) hk0 hj1 (by omega)
        · have hjlast : j = ord.length - 1 := by omega
          subst hjlast
          rw [hstep_last]
          rfl
      -- end
    rw [← hpi] at hcyc
    by_cases hin : i + n < ord.length
    · rw [hstepN n i hin] at hcyc
      have := Option.some_inj.mp hcyc
      have hidx : i + n = i := (List.Nodup.getElem_inj_iff hond).mp this
      omega
    · rw [hstepN_none n i hn hi (by omega)] at hcyc
      exact absurd hcyc (by simp)

/-! ## C8: faulty chains are rejected and contained -/

/-- C8: a course whose chain has zero or several heads, or whose chain
contains a cycle, makes the (always-terminating) resolver report the
data-integrity fault naming that course; and, as the demo store shows, the
engine still returns the other, well-formed course resolved, the faulty
course's lesson list neither truncated nor duplicated, with the fault
reported alongside. -/
theorem sortCourse_faulty_chain_contained :
    (∀ c : CourseWithProgress, flattenLessons c ≠ [] →
      (chainHeads (flattenLessons c)).length ≠ 1 →
      sortCourse c = Except.error (chainFault c.slug)) ∧
    (∀ (c : CourseWithProgress) (p : Nat × Lesson) (n : Nat),
      p ∈ flattenLessons c → 0 < n →
      stepN (flattenLessons c) n p = some p →
      sortCourse c = Except.error (chainFault c.slug)) ∧
    ((getUserEnrolments gC8 "u8").user =
        some { id := "u8", name := "U8", givenName := "G8" } ∧
      (getUserEnrolments gC8 "u8").faults = [chainFault "bad"] ∧
      ((getUserEnrolments gC8 "u8").enrolments.getD []).map (fun p => p.1) =
        [STATUS_AVAILABLE] ∧
      (((getUserEnrolments gC8 "u8").enrolments.getD []).flatMap (fun p => p.2)).map
          (fun c => (c.slug, c.modules.map (fun m => m.lessons.map (fun l => l.slug)))) =
        [("good", [["g1", "g2"]]), ("bad", [["b1", "b2"]])]) := by
  refine ⟨?_, sortCourse_cycle_error, by decide⟩
  intro c hne hheads
  cases hs : sortCourse c with
  | error msg => rw [sortCourse_error_eq hs]
  | ok c' =>
    exfalso
    rcases sortCourse_ok_inv hne hs with ⟨hd, hh, _, _, _⟩
    rw [hh] at hheads
    simp at hheads

/-! ## Chains: index-wise facts -/

theorem ChainLinked.next_eq {ls : List Lesson} (h : ChainLinked ls) {i : Nat}
    (hi : i + 1 < ls.length) :
    (ls[i]).next = some (lessonStubOf (ls[i + 1])) := by
  have hzlen : i < (ls.zip ls.tail).length := by
    rw [List.length_zip, List.length_tail]
    omega
  have hz : (ls.zip ls.tail)[i] = (ls[i], ls[i + 1]) := by
    rw [List.getElem_zip]
    congr 1
    rw [List.getElem_tail]
  have hmem : (ls[i], ls[i + 1]) ∈ ls.zip ls.tail := by
    rw [← hz]; exact List.getElem_mem hzlen
  exact (h.1 _ hmem).1

theorem ChainLinked.prev_eq {ls : List Lesson} (h : ChainLinked ls) {i : Nat}
    (hi : i + 1 < ls.length) :
    (ls[i + 1]).previous = some (lessonStubOf (ls[i])) := by
  have hzlen : i < (ls.zip ls.tail).length := by
    rw [List.length_zip, List.length_tail]
    omega
  have hz : (ls.zip ls.tail)[i] = (ls[i], ls[i + 1]) := by
    rw [List.getElem_zip]
    congr 1
    rw [List.getElem_tail]
  have hmem : (ls[i], ls[i + 1]) ∈ ls.zip ls.tail := by
    rw [← hz]; exact List.getElem_mem hzlen
  exact (h.1 _ hmem).2

theorem ChainLinked.head_prev {ls : List Lesson} (h : ChainLinked ls)
    (h0 : 0 < ls.length) : (ls[0]).previous = none := by
  cases ls with
  | nil => simp at h0
  | cons a t =>
    have := h.2.1
    simpa using this

theorem ChainLinked.last_next {ls : List Lesson} (h : ChainLinked ls)
    (h0 : 0 < ls.length) : (ls[ls.length - 1]).next = none := by
  have hne : ls ≠ [] := List.ne_nil_of_length_pos h0
  have h2 := h.2.2
  have hmapne : ls.map (fun l => l.next) ≠ [] := by
    rw [Ne, List.map_eq_nil_iff]
    exact hne
  rw [List.getLast?_eq_getLast _ hmapne] at h2
  simp only [Option.getD_some] at h2
  rw [List.getLast_eq_getElem] at h2
  rw [List.getElem_map] at h2
  simpa [List.length_map] using h2

theorem chain_heads_eq {flat ch : List (Nat × Lesson)}
    (hperm : flat.Perm ch)
    (hnd : (ch.map (fun p => p.2.link)).Nodup)
    (hchain : ChainLinked (ch.map (fun p => p.2)))
    (h0 : 0 < ch.length) :
    chainHeads flat = [ch[0]] := by
  have hchnodup : ch.Nodup := List.Nodup.of_map _ hnd
  have hlslen : (ch.map (fun p => p.2)).length = ch.length := List.length_map _ _
  have hprev0 : (ch[0]).2.previous = none := by
    have := hchain.head_prev (by simpa using h0)
    rwa [List.getElem_map] at this
  have huniq : ∀ q ∈ ch, q.2.previous = none → q = ch[0] := by
    intro q hq hqp
    rcases List.mem_iff_getElem.mp hq with ⟨i, hi, rfl⟩
    cases i with
    | zero => rfl
    | succ j =>
      exfalso
      have := hchain.prev_eq (i := j) (by omega)
      rw [List.getElem_map] at this
      rw [hqp] at this
      exact absurd this (by simp)
  have hfilter : ch.filter (fun p => p.2.previous.isNone) = [ch[0]] := by
    obtain ⟨c0, rest, hch⟩ : ∃ c0 rest, ch = c0 :: rest := by
      cases ch with
      | nil => simp at h0
      | cons a t => exact ⟨a, t, rfl⟩
    have hc00 : ch[0] = c0 := by simp [hch]
    have hprev0c : c0.2.previous = none := hc00 ▸ hprev0
    rw [hc00, hch, List.filter_cons_of_pos (by simp [hprev0c])]
    congr 1
    rw [List.filter_eq_nil_iff]
    intro q hq hqpred
    have hqprev : q.2.previous = none := by
      simpa [Option.isNone_iff_eq_none] using hqpred
    have hqc : q = ch[0] := huniq q (hch ▸ List.mem_cons_of_mem c0 hq) hqprev
    rw [hc00] at hqc
    have hnodup2 : (c0 :: rest).Nodup := by rw [← hch]; exact hchnodup
    exact absurd (hqc ▸ hq) (List.nodup_cons.mp hnodup2).1
  calc chainHeads flat = flat.filter (fun p => p.2.previous.isNone) := rfl
    _ = [ch[0]] := by
      have hp : (flat.filter (fun p => p.2.previous.isNone)).Perm
          (ch.filter (fun p => p.2.previous.isNone)) := hperm.filter _
      rw [hfilter] at hp
      exact List.perm_singleton.mp hp

theorem chain_step_eq {flat ch : List (Nat × Lesson)}
    (hperm : flat.Perm ch)
    (hnd : (ch.map (fun p => p.2.link)).Nodup)
    (hchain : ChainLinked (ch.map (fun p => p.2)))
    (i : Nat) (hi : i + 1 < ch.length) :
    chainStep flat (ch[i]) = some (ch[i + 1]) := by
  have hlink_flat : (flat.map (fun p => p.2.link)).Nodup :=
    ((hperm.map _).nodup_iff).mpr hnd
  have hnext : (ch[i]).2.next =
      some (lessonStubOf ((ch[i + 1]).2)) := by
    have := hchain.next_eq (i := i) (by simpa using hi)
    rwa [List.getElem_map, List.getElem_map] at this
  rw [chainStep, hnext, Option.some_bind]
  exact find?_link_of_mem hlink_flat
    (hperm.mem_iff.mpr (List.getElem_mem hi)) rfl

theorem chain_step_last {flat ch : List (Nat × Lesson)}
    (hchain : ChainLinked (ch.map (fun p => p.2)))
    (h0 : 0 < ch.length) :
    chainStep flat (ch[ch.length - 1]) = none := by
  have hnext : (ch[ch.length - 1]).2.next = none := by
    have := hchain.last_next (by simpa using h0)
    simpa using this
  rw [chainStep, hnext]
  rfl

theorem walk_follows {flat ch : List (Nat × Lesson)}
    (hperm : flat.Perm ch)
    (hnd : (ch.map (fun p => p.2.link)).Nodup)
    (hchain : ChainLinked (ch.map (fun p => p.2))) :
    ∀ (k i : Nat) (hi : i < ch.length), ch.length - i ≤ k + 1 →
      walkChain flat k (ch[i]) = ch.drop i := by
  intro k
  induction k with
  | zero =>
    intro i hi hcnt
    have hilast : i = ch.length - 1 := by omega
    subst hilast
    rw [walkChain]
    rw [List.drop_eq_getElem_cons (by omega)]
    congr 1
    have : ch.length - 1 + 1 = ch.length := by omega
    rw [this, List.drop_length]
  | succ k ih =>
    intro i hi hcnt
    by_cases hilast : i + 1 < ch.length
    · have hst := chain_step_eq hperm hnd hchain i hilast
      simp only [walkChain, hst]
      rw [ih (i + 1) hilast (by omega)]
      exact (List.drop_eq_getElem_cons hi).symm
    · have hieq : i = ch.length - 1 := by omega
      subst hieq
      have hst := @chain_step_last flat ch hchain (by omega)
      simp only [walkChain, hst]
      rw [List.drop_eq_getElem_cons (by omega)]
      congr 1
      have : ch.length - 1 + 1 = ch.length := by omega
      rw [this, List.drop_length]

/-! ## Contiguous module blocks -/

theorem ContiguousKeys.drop {ks : List Nat} (h : ContiguousKeys ks) (m : Nat) :
    ContiguousKeys (ks.drop m) := by
  intro i j k hij hjk hik
  have hlen : (ks.drop m).length = ks.length - m := List.length_drop m ks
  have hi : m + i.val < ks.length := by omega
  have hj : m + j.val < ks.length := by omega
  have hk : m + k.val < ks.length := by omega
  have gi : (ks.drop m).get i = ks.get ⟨m + i.val, hi⟩ := by
    rw [List.get_eq_getElem, List.get_eq_getElem, List.getElem_drop]
  have gj : (ks.drop m).get j = ks.get ⟨m + j.val, hj⟩ := by
    rw [List.get_eq_getElem, List.get_eq_getElem, List.getElem_drop]
  have gk : (ks.drop m).get k = ks.get ⟨m + k.val, hk⟩ := by
    rw [List.get_eq_getElem, List.get_eq_getElem, List.getElem_drop]
  rw [gi, gk] at hik
  rw [gj, gi]
  have hij2 : i.val ≤ j.val := hij
  have hjk2 : j.val ≤ k.val := hjk
  exact h ⟨m + i.val, hi⟩ ⟨m + j.val, hj⟩ ⟨m + k.val, hk⟩
    (by rw [Fin.mk_le_mk]; omega)
    (by rw [Fin.mk_le_mk]; omega)
    hik

theorem getElem_cons_append_right {α : Type} (c0 : α) (l1 l2 : List α)
    (a : Nat) (h : a < l2.length)
    (hb : 1 + l1.length + a < (c0 :: (l1 ++ l2)).length) :
    (c0 :: (l1 ++ l2))[1 + l1.length + a] = l2[a] := by
  have h1 : 1 + l1.length + a = (l1.length + a) + 1 := by omega
  rw [getElem_congr h1, List.getElem_cons_succ]
  rw [List.getElem_append]
  rw [dif_neg (by omega)]
  exact getElem_congr (by omega)

theorem contiguous_no_return {ch : List (Nat × Lesson)} {c0 : Nat × Lesson}
    {t : List (Nat × Lesson)} (hch : ch = c0 :: t)
    (hcontig : ContiguousKeys (ch.map (fun p => p.1))) :
    ∀ p ∈ t.dropWhile (fun q => q.1 = c0.1), p.1 ≠ c0.1 := by
  intro p hp hpk
  set tk := t.takeWhile (fun q => q.1 = c0.1) with htk
  set td := t.dropWhile (fun q => q.1 = c0.1) with htd
  have hsplit : t = tk ++ td := (List.takeWhile_append_dropWhile _ _).symm
  have htdne : td ≠ [] := List.ne_nil_of_mem hp
  have hhead : ¬ ((td.head htdne).1 = c0.1) := by
    have := List.head_dropWhile_not (fun q => decide (q.1 = c0.1)) t htdne
    simpa using this
  rcases List.mem_iff_getElem.mp hp with ⟨a, ha, hpa⟩
  have hchp : ch = c0 :: (tk ++ td) := by rw [hch, hsplit]
  have hkslen : (ch.map (fun p => p.1)).length = 1 + tk.length + td.length := by
    rw [hchp]; simp; omega
  have h0lt : 0 < (ch.map (fun p => p.1)).length := by omega
  have h1lt : 1 + tk.length < (ch.map (fun p => p.1)).length := by omega
  have h2lt : 1 + tk.length + a < (ch.map (fun p => p.1)).length := by omega
  have hg0 : (ch.map (fun p => p.1)).get ⟨0, h0lt⟩ = c0.1 := by
    rw [List.get_eq_getElem, List.getElem_map, List.getElem_of_eq hchp]
    rfl
  have hb1 : 1 + tk.length < ch.length := by
    rw [List.length_map] at h1lt
    omega
  have hb2 : 1 + tk.length + a < ch.length := by
    rw [List.length_map] at h2lt
    omega
  have hb0 : 0 < td.length := by omega
  have hg1 : (ch.map (fun p => p.1)).get ⟨1 + tk.length, h1lt⟩ = (td.head htdne).1 := by
    rw [List.get_eq_getElem, List.getElem_map]
    have hstep : ch[1 + tk.length] = td[0] := by
      rw [List.getElem_of_eq hchp]
      have hbc : 1 + tk.length + 0 < (c0 :: (tk ++ td)).length := by
        simp
        omega
      have := getElem_cons_append_right c0 tk td 0 hb0 hbc
      rw [← this]
      exact getElem_congr (by omega)
    rw [hstep, List.head_eq_getElem]
  have hg2 : (ch.map (fun p => p.1)).get ⟨1 + tk.length + a, h2lt⟩ = p.1 := by
    rw [List.get_eq_getElem, List.getElem_map]
    have hstep : ch[1 + tk.length + a] = td[a] := by
      rw [List.getElem_of_eq hchp]
      exact getElem_cons_append_right c0 tk td a ha (by simp; omega)
    rw [hstep, hpa]
  have := hcontig ⟨0, h0lt⟩ ⟨1 + tk.length, h1lt⟩ ⟨1 + tk.length + a, h2lt⟩
    (by rw [Fin.mk_le_mk]; omega) (by rw [Fin.mk_le_mk]; omega)
    (by rw [hg0, hg2, hpk])
  rw [hg1, hg0] at this
  exact hhead this

theorem contiguous_flatMap :
    ∀ (ch : List (Nat × Lesson)),
      ContiguousKeys (ch.map (fun p => p.1)) →
      (firstKeys (ch.map (fun p => p.1))).flatMap
        (fun i => ch.filter (fun p => p.1 = i)) = ch := by
  have H : ∀ (n : Nat) (ch : List (Nat × Lesson)), ch.length ≤ n →
      ContiguousKeys (ch.map (fun p => p.1)) →
      (firstKeys (ch.map (fun p => p.1))).flatMap
        (fun i => ch.filter (fun p => p.1 = i)) = ch := by
    intro n
    induction n with
    | zero =>
      intro ch hl _
      rw [List.length_eq_zero.mp (Nat.le_zero.mp hl)]
      rfl
    | succ n ih =>
      intro ch hl hcontig
      cases hch : ch with
      | nil => rfl
      | cons c0 t =>
        subst hch
        set k := c0.1 with hk
        set tk := t.takeWhile (fun q => q.1 = k) with htk
        set td := t.dropWhile (fun q => q.1 = k) with htd
        have hsplit : t = tk ++ td := (List.takeWhile_append_dropWhile _ _).symm
        have htkall : ∀ p ∈ tk, p.1 = k := by
          intro p hp
          have := List.mem_takeWhile_imp hp
          simpa using this
        have htdall : ∀ p ∈ td, p.1 ≠ k :=
          contiguous_no_return rfl hcontig
        have hfilterk : (c0 :: t).filter (fun p => p.1 = k) = c0 :: tk := by
          rw [List.filter_cons_of_pos (by simp), hsplit, List.filter_append]
          rw [List.filter_eq_self.mpr (fun p hp => by simpa using htkall p hp)]
          rw [List.filter_eq_nil_iff.mpr (fun p hp => by simpa using htdall p hp)]
          rw [List.append_nil]
        have hkeys : firstKeys ((c0 :: t).map (fun p => p.1)) =
            k :: firstKeys (td.map (fun p => p.1)) := by
          rw [List.map_cons, firstKeys_cons]
          congr 1
          congr 1
          rw [hsplit, List.map_append, List.filter_append]
          rw [List.filter_eq_nil_iff.mpr (fun x hx => by
            rcases List.mem_map.mp hx with ⟨p, hp, rfl⟩
            simpa using htkall p hp)]
          rw [List.filter_eq_self.mpr (fun x hx => by
            rcases List.mem_map.mp hx with ⟨p, hp, rfl⟩
            simpa using htdall p hp)]
          rfl
        have hother : ∀ k' ∈ firstKeys (td.map (fun p => p.1)),
            (c0 :: t).filter (fun p => p.1 = k') = td.filter (fun p => p.1 = k') := by
          intro k' hk'
          have hk'td : k' ∈ td.map (fun p => p.1) := (mem_firstKeys _ _).mp hk'
          rcases List.mem_map.mp hk'td with ⟨q, hq, rfl⟩
          have hk'ne : ¬ (k = q.1) := fun h => htdall q hq h.symm
          rw [List.filter_cons_of_neg (by simpa using hk'ne), hsplit,
            List.filter_append]
          rw [List.filter_eq_nil_iff.mpr (fun p hp => by
            have := htkall p hp
            simp only [decide_eq_true_eq]
            rw [this]
            exact hk'ne)]
          rw [List.nil_append]
        have htdcontig : ContiguousKeys (td.map (fun p => p.1)) := by
          have hdrop : td.map (fun p => p.1) =
              ((c0 :: t).map (fun p => p.1)).drop (1 + tk.length) := by
            rw [List.map_cons, hsplit, List.map_append]
            rw [show 1 + tk.length = tk.length + 1 from by omega]
            rw [List.drop_succ_cons]
            rw [show tk.length = (tk.map (fun p => p.1)).length from
              (List.length_map _ _).symm]
            rw [List.drop_left]
          rw [hdrop]
          exact hcontig.drop (1 + tk.length)
        have htdlen : td.length ≤ n := by
          have hsl := congrArg List.length hsplit
          rw [List.length_append] at hsl
          rw [List.length_cons] at hl
          omega
        rw [hkeys, List.flatMap_cons, hfilterk, List.flatMap_congr hother,
          ih td htdlen htdcontig, hsplit]
        rfl
  exact fun ch => H ch.length ch le_rfl

theorem flattenFrom_map_lessons (f : Nat → Module) (G : Nat → List Lesson)
    (hf : ∀ i, (f i).lessons = G i) :
    ∀ (js : List Nat) (n : Nat),
      (flattenFrom n (js.map f)).map (fun p => p.2) = js.flatMap G := by
  intro js
  induction js with
  | nil => intro n; rfl
  | cons i t ihj =>
    intro n
    rw [List.map_cons, flattenFrom, List.map_append, ihj (n + 1), List.flatMap_cons]
    congr 1
    rw [List.map_map, ← hf i]
    simp

/-- C1 amended: for a course whose lessons form a single next-lesson chain in
which each module's lessons occupy one contiguous block (as the specification's
ordering invariant requires — the edge leaving a module's last lesson points to
the next module's first lesson), `resolve` succeeds, the resolved course's
flattened lesson sequence is exactly the chain order, its neighbour stubs still
link consecutive lessons across module boundaries, and the module order is
derived from each module's first-visited lesson (lessonless modules keeping
their relative order at the end). -/
theorem sortCourse_single_chain (c : CourseWithProgress) (ch : List (Nat × Lesson))
    (hne : ch ≠ [])
    (hperm : (flattenLessons c).Perm ch)
    (hnd : (ch.map (fun p => p.2.link)).Nodup)
    (hchain : ChainLinked (ch.map (fun p => p.2)))
    (hcontig : ContiguousKeys (ch.map (fun p => p.1))) :
    sortCourse c = Except.ok (rebuildCourse c ch) ∧
    (flattenLessons (rebuildCourse c ch)).map (fun p => p.2) =
      ch.map (fun p => p.2) ∧
    ChainLinked ((flattenLessons (rebuildCourse c ch)).map (fun p => p.2)) ∧
    (rebuildCourse c ch).modules =
      (firstKeys (ch.map (fun p => p.1)) ++
        (List.range c.modules.length).filter
          (fun i => ¬ i ∈ firstKeys (ch.map (fun p => p.1)))).map
        (fun i => { c.modules.getD i emptyModule with
            lessons := (ch.filter (fun p => p.1 = i)).map (fun p => p.2) }) := by
  have h0 : 0 < ch.length := List.length_pos.mpr hne
  have hlen : (flattenLessons c).length = ch.length := hperm.length_eq
  have hflatne : ¬ (flattenLessons c = []) := by
    intro hnil
    rw [hnil] at hlen
    simp at hlen
    omega
  have hheads : chainHeads (flattenLessons c) = [ch[0]] :=
    chain_heads_eq hperm hnd hchain h0
  have horder : walkChain (flattenLessons c) (flattenLessons c).length (ch[0]) =
      ch := by
    have := walk_follows hperm hnd hchain (flattenLessons c).length 0 h0 (by omega)
    rwa [List.drop_zero] at this
  have hflatlessons : (flattenLessons (rebuildCourse c ch)).map (fun p => p.2) =
      ch.map (fun p => p.2) := by
    have hre : (flattenLessons (rebuildCourse c ch)).map (fun p => p.2) =
        (firstKeys (ch.map (fun p => p.1)) ++
          (List.range c.modules.length).filter
            (fun i => ¬ i ∈ firstKeys (ch.map (fun p => p.1)))).flatMap
          (fun i => (ch.filter (fun p => p.1 = i)).map (fun p => p.2)) := by
      exact flattenFrom_map_lessons _ _ (fun i => rfl) _ 0
    rw [hre, List.flatMap_append]
    have hunused : ((List.range c.modules.length).filter
        (fun i => ¬ i ∈ firstKeys (ch.map (fun p => p.1)))).flatMap
          (fun i => (ch.filter (fun p => p.1 = i)).map (fun p => p.2)) = [] := by
      rw [List.flatMap_congr (g := fun _ => ([] : List Lesson)) (fun i hi => ?_)]
      · simp
      · have hnotin : ¬ i ∈ firstKeys (ch.map (fun p => p.1)) := by
          have := (List.mem_filter.mp hi).2
          simpa using this
        rw [List.filter_eq_nil_iff.mpr (fun p hp => ?_), List.map_nil]
        intro hpi
        apply hnotin
        rw [mem_firstKeys]
        exact List.mem_map.mpr ⟨p, hp, by simpa using hpi⟩
    rw [hunused, List.append_nil]
    rw [← List.map_flatMap]
    rw [contiguous_flatMap ch hcontig]
  refine ⟨?_, hflatlessons, ?_, rfl⟩
  · rw [sortCourse, if_neg hflatne, hheads]
    simp only [horder]
    rw [if_pos ⟨hlen.symm, hnd⟩]
  · rw [hflatlessons]
    exact hchain

/-- Witness for the amended C1 at the concrete cross-module course: chain
a → b → c → d over modules M1 = [a,b], M2 = [c,d] stored as [m2, m1]. -/
theorem sortCourse_single_chain_witness :
    sortCourse courseCx = Except.ok (rebuildCourse courseCx chainCx) ∧
    (flattenLessons (rebuildCourse courseCx chainCx)).map (fun p => p.2) =
      chainCx.map (fun p => p.2) ∧
    ChainLinked ((flattenLessons (rebuildCourse courseCx chainCx)).map (fun p => p.2)) ∧
    (rebuildCourse courseCx chainCx).modules =
      (firstKeys (chainCx.map (fun p => p.1)) ++
        (List.range courseCx.modules.length).filter
          (fun i => ¬ i ∈ firstKeys (chainCx.map (fun p => p.1)))).map
        (fun i => { courseCx.modules.getD i emptyModule with
            lessons := (chainCx.filter (fun p => p.1 = i)).map (fun p => p.2) }) :=
  sortCourse_single_chain courseCx chainCx (by decide) (by decide) (by decide)
    (by decide) (by decide)

/-- Counterexample to C1 as stated: `courseItl`'s lessons form one
next-lesson chain with a single head and a single tail (a → b → c), yet after
a successful `resolve` the flattened lesson sequence is a, c, b — not the
chain order — because lessons are regrouped under their owning modules and the
chain interleaves the two modules. -/
theorem sortCourse_interleaved_chain_cex :
    (flattenLessons courseItl).Perm chainItl ∧
    (chainItl.map (fun p => p.2.link)).Nodup ∧
    ChainLinked (chainItl.map (fun p => p.2)) ∧
    (chainHeads (flattenLessons courseItl)).length = 1 ∧
    ((sortCourse courseItl).toOption.map (fun out =>
      (flattenLessons out).map (fun p => p.2))) ≠
        some (chainItl.map (fun p => p.2)) ∧
    ((sortCourse courseItl).toOption.map (fun out =>
      (flattenLessons out).map (fun p => p.2.slug))) = some ["a", "c", "b"] ∧
    chainItl.map (fun p => p.2.slug) = ["a", "b", "c"] := by
  decide

/-! ## Support for idempotence -/

theorem nodup_indexOf_getElem {l : List Nat} (h : l.Nodup)
    (j : Nat) (hj : j < l.length) : l.indexOf (l[j]) = j := by
  have hmem : l[j] ∈ l := List.getElem_mem hj
  have hlt : l.indexOf (l[j]) < l.length := List.indexOf_lt_length.mpr hmem
  have hget : l[l.indexOf (l[j])] = l[j] := List.getElem_indexOf hlt
  exact (List.Nodup.getElem_inj_iff h).mp hget

theorem indexOf_inj_on_mem {l : List Nat} {a b : Nat}
    (ha : a ∈ l) (hb : b ∈ l) (h : l.indexOf a = l.indexOf b) : a = b := by
  have hla : l.indexOf a < l.length := List.indexOf_lt_length.mpr ha
  have hlb : l.indexOf b < l.length := List.indexOf_lt_length.mpr hb
  have h1 : l[l.indexOf a] = a := List.getElem_indexOf hla
  have h2 : l[l.indexOf b] = b := List.getElem_indexOf hlb
  have h3 : l[l.indexOf a] = l[l.indexOf b] := getElem_congr h
  rw [h1, h2] at h3
  exact h3

theorem firstKeys_map_inj (f : Nat → Nat) :
    ∀ (l : List Nat), (∀ a ∈ l, ∀ b ∈ l, f a = f b → a = b) →
      firstKeys (l.map f) = (firstKeys l).map f := by
  have H : ∀ (n : Nat) (l : List Nat), l.length ≤ n →
      (∀ a ∈ l, ∀ b ∈ l, f a = f b → a = b) →
      firstKeys (l.map f) = (firstKeys l).map f := by
    intro n
    induction n with
    | zero =>
      intro l hl _
      rw [List.length_eq_zero.mp (Nat.le_zero.mp hl)]
      rfl
    | succ n ih =>
      intro l hl hinj
      cases l with
      | nil => rfl
      | cons a t =>
        rw [List.map_cons, firstKeys_cons, firstKeys_cons, List.map_cons]
        congr 1
        rw [List.filter_map]
        have hflt : t.filter ((fun b => decide (¬ b = f a)) ∘ f) =
            t.filter (fun b => ¬ b = a) := by
          refine List.filter_congr (fun x hx => ?_)
          simp only [Function.comp, decide_eq_decide]
          constructor
          · intro hfx hxa
            exact hfx (by rw [hxa])
          · intro hxa hfx
            exact hxa (hinj x (List.mem_cons_of_mem a hx) a
              (List.mem_cons_self a t) hfx)
        rw [hflt]
        refine ih (t.filter (fun b => ¬ b = a)) ?_ ?_
        · have := List.length_filter_le (fun b => decide (¬ b = a)) t
          rw [List.length_cons] at hl
          omega
        · intro x hx y hy hxy
          exact hinj x (List.mem_cons_of_mem a (List.mem_filter.mp hx).1)
            y (List.mem_cons_of_mem a (List.mem_filter.mp hy).1) hxy
  exact fun l => H l.length l le_rfl

theorem range_filter_split :
    ∀ (n k : Nat), k ≤ n →
      List.range k ++ (List.range n).filter (fun i => ¬ i ∈ List.range k) =
        List.range n := by
  intro n
  induction n with
  | zero =>
    intro k hk
    rw [Nat.le_zero.mp hk]
    rfl
  | succ n ih =>
    intro k hk
    by_cases hkn : k ≤ n
    · rw [List.range_succ, List.filter_append, ← List.append_assoc, ih k hkn]
      congr 1
      rw [List.filter_cons_of_pos (by simp [List.mem_range]; omega)]
      rfl
    · have hkeq : k = n + 1 := by omega
      subst hkeq
      rw [List.filter_eq_nil_iff.mpr (fun i hi => by simpa using hi),
        List.append_nil]

theorem chainStep_map {ls ls' : List (Nat × Lesson)}
    {m : (Nat × Lesson) → (Nat × Lesson)}
    (hm2 : ∀ p, (m p).2 = p.2)
    (hmem : ∀ p ∈ ls, m p ∈ ls')
    (hnd' : (ls'.map (fun p => p.2.link)).Nodup)
    (hiff : ∀ L, (∃ p ∈ ls, p.2.link = L) ↔ (∃ p ∈ ls', p.2.link = L))
    (cur : Nat × Lesson) :
    chainStep ls' (m cur) = (chainStep ls cur).map m := by
  rw [chainStep, chainStep, hm2]
  cases hnx : cur.2.next with
  | none => rfl
  | some stub =>
    rw [Option.some_bind, Option.some_bind]
    cases hfd : ls.find? (fun q => q.2.link = stub.link) with
    | none =>
      rw [Option.map_none']
      rw [List.find?_eq_none]
      intro x hx
      simp only [decide_eq_true_eq]
      intro hxl
      have : ∃ p ∈ ls, p.2.link = stub.link := (hiff stub.link).mpr ⟨x, hx, hxl⟩
      rcases this with ⟨p, hp, hpl⟩
      have := List.find?_eq_none.mp hfd p hp
      simp [hpl] at this
    | some nxt =>
      rw [Option.map_some']
      have hnmem : nxt ∈ ls := List.mem_of_find?_eq_some hfd
      have hnl : nxt.2.link = stub.link := by
        simpa using List.find?_some hfd
      exact find?_link_of_mem hnd' (hmem nxt hnmem) (by rw [hm2]; exact hnl)

theorem walkChain_map {ls ls' : List (Nat × Lesson)}
    {m : (Nat × Lesson) → (Nat × Lesson)}
    (hm2 : ∀ p, (m p).2 = p.2)
    (hmem : ∀ p ∈ ls, m p ∈ ls')
    (hnd' : (ls'.map (fun p => p.2.link)).Nodup)
    (hiff : ∀ L, (∃ p ∈ ls, p.2.link = L) ↔ (∃ p ∈ ls', p.2.link = L)) :
    ∀ (fuel : Nat) (cur : Nat × Lesson),
      walkChain ls' fuel (m cur) = (walkChain ls fuel cur).map m := by
  intro fuel
  induction fuel with
  | zero => intro cur; rfl
  | succ n ih =>
    intro cur
    have hstep := chainStep_map hm2 hmem hnd' hiff cur
    cases hst : chainStep ls cur with
    | none =>
      rw [hst, Option.map_none'] at hstep
      simp only [walkChain, hst, hstep]
      rfl
    | some nxt =>
      rw [hst, Option.map_some'] at hstep
      simp only [walkChain, hst, hstep]
      rw [List.map_cons, ih nxt]

theorem flattenFrom_perm_grouped (ord : List (Nat × Lesson)) (f : Nat → Module)
    (hf : ∀ i, (f i).lessons = (ord.filter (fun p => p.1 = i)).map (fun p => p.2))
    (g : Nat → Nat) :
    ∀ (js : List Nat) (n : Nat), js.Nodup →
      (∀ (j : Nat) (hj : j < js.length), g (js[j]) = n + j) →
      (flattenFrom n (js.map f)).Perm
        ((ord.filter (fun p => p.1 ∈ js)).map (fun p => (g p.1, p.2))) := by
  intro js
  induction js with
  | nil =>
    intro n _ _
    rw [List.filter_eq_nil_iff.mpr (fun p _ => by simp)]
    exact List.Perm.refl _
  | cons i t ihj =>
    intro n hnd hg
    have hg0 : g i = n := by simpa using hg 0 (by simp)
    have hA : ((f i).lessons).map (fun l => (n, l)) =
        (ord.filter (fun p => p.1 = i)).map (fun p => (g p.1, p.2)) := by
      rw [hf i, List.map_map]
      refine List.map_congr_left (fun p hp => ?_)
      have : p.1 = i := by simpa using (List.mem_filter.mp hp).2
      simp [this, hg0]
    have hB : (flattenFrom (n + 1) (t.map f)).Perm
        ((ord.filter (fun p => p.1 ∈ t)).map (fun p => (g p.1, p.2))) := by
      refine ihj (n + 1) (List.nodup_cons.mp hnd).2 (fun j hj => ?_)
      have := hg (j + 1) (by simp; omega)
      rw [List.getElem_cons_succ] at this
      rw [this]
      omega
    have hX1 : (ord.filter (fun p => p.1 ∈ i :: t)).filter (fun p => p.1 = i) =
        ord.filter (fun p => p.1 = i) := by
      rw [List.filter_filter]
      refine List.filter_congr (fun p _ => ?_)
      by_cases hpi : p.1 = i <;> simp [hpi]
    have hX2 : (ord.filter (fun p => p.1 ∈ i :: t)).filter
        (fun p => ¬ p.1 = i) = ord.filter (fun p => p.1 ∈ t) := by
      rw [List.filter_filter]
      refine List.filter_congr (fun p _ => ?_)
      have hit : ¬ i ∈ t := (List.nodup_cons.mp hnd).1
      by_cases hpt : p.1 ∈ t
      · have hne2 : ¬ p.1 = i := fun h => hit (h ▸ hpt)
        simp [hpt, hne2, List.mem_cons]
      · by_cases hpi : p.1 = i <;> simp [hpt, hpi, hit, List.mem_cons]
    have hsplit : ((ord.filter (fun p => p.1 = i)) ++
        (ord.filter (fun p => p.1 ∈ t))).Perm
          (ord.filter (fun p => p.1 ∈ i :: t)) := by
      rw [← hX1, ← hX2]
      have := List.filter_append_perm (fun p => decide (p.1 = i))
        (ord.filter (fun p => p.1 ∈ i :: t))
      refine List.Perm.trans ?_ this
      refine List.Perm.append_left _ ?_
      refine List.Perm.of_eq ?_
      refine List.filter_congr (fun p _ => ?_)
      simp
    refine List.Perm.trans ?_ (hsplit.map _)
    rw [List.map_append, List.map_cons, flattenFrom, hA]
    exact List.Perm.append_left _ hB

/-- C7: the resolver is idempotent — resolving an already-resolved course
changes nothing, and a rejected course is rejected again with the same fault,
so `resolve ∘ resolve = resolve` under `Except` sequencing. -/
theorem sortCourse_idempotent (c : CourseWithProgress) :
    (sortCourse c).bind sortCourse = sortCourse c := by
  cases hs : sortCourse c with
  | error msg => rfl
  | ok c' =>
    show sortCourse c' = Except.ok c'
    by_cases hnil : flattenLessons c = []
    · have hcc : c = c' := by
        have h0 := sortCourse_ok_of_nil hnil
        rw [hs] at h0
        exact ((Except.ok.injEq _ _).mp h0).symm
      rw [← hcc]
      exact sortCourse_ok_of_nil hnil
    · rcases sortCourse_ok_inv hnil hs with ⟨hd, hheads, hlen, hnd, hc'⟩
      set flat := flattenLessons c with hflatdef
      set ord := walkChain flat flat.length hd with horddef
      have hhdflat : hd ∈ flat := chainHeads_single_mem hheads
      have hsub : ∀ q ∈ ord, q ∈ flat := walkChain_subset flat flat.length hd hhdflat
      have hond : ord.Nodup := List.Nodup.of_map _ hnd
      have hpermOF : ord.Perm flat :=
        (hond.subperm hsub).perm_of_length_le (le_of_eq hlen.symm)
      set used := firstKeys (ord.map (fun p => p.1)) with husdef
      set unused := (List.range c.modules.length).filter (fun i => ¬ i ∈ used)
        with hundef
      set idxs := used ++ unused with hidef
      have hidxnodup : idxs.Nodup := by
        rw [hidef, List.nodup_append]
        refine ⟨firstKeys_nodup _, List.Nodup.filter _ (List.nodup_range _), ?_⟩
        intro a ha hb
        have := (List.mem_filter.mp hb).2
        simp only [decide_eq_true_eq] at this
        exact this ha
      have hkeys_used : ∀ q ∈ ord, q.1 ∈ used := fun q hq =>
        (mem_firstKeys _ _).mpr (List.mem_map.mpr ⟨q, hq, rfl⟩)
      have hkeys_idxs : ∀ q ∈ ord, q.1 ∈ idxs := fun q hq =>
        List.mem_append.mpr (Or.inl (hkeys_used q hq))
      set F : Nat → Module := fun i =>
        { c.modules.getD i emptyModule with
            lessons := (ord.filter (fun p => p.1 = i)).map (fun p => p.2) } with hFdef
      set m0 : (Nat × Lesson) → (Nat × Lesson) :=
        fun p => (idxs.indexOf p.1, p.2) with hm0def
      have hmods : c'.modules = idxs.map F := by
        rw [hc']
        rfl
      have hflatc' : flattenLessons c' = flattenFrom 0 (idxs.map F) := by
        show flattenFrom 0 c'.modules = _
        rw [hmods]
      have hperm' : (flattenLessons c').Perm (ord.map m0) := by
        rw [hflatc']
        have hg : ∀ (j : Nat) (hj : j < idxs.length),
            idxs.indexOf (idxs[j]) = 0 + j := fun j hj => by
          rw [nodup_indexOf_getElem hidxnodup j hj]
          omega
        have hpg := flattenFrom_perm_grouped ord F (fun i => rfl)
          (fun x => idxs.indexOf x) idxs 0 hidxnodup hg
        rw [List.filter_eq_self.mpr (fun q hq => by
          simpa using hkeys_idxs q hq)] at hpg
        exact hpg
      have hm2 : ∀ p, (m0 p).2 = p.2 := fun p => rfl
      have hlinkc' : (flattenLessons c').map (fun p => p.2.link) =
          (flattenLessons c').map (fun p => p.2.link) := rfl
      have hlinkmap : (ord.map m0).map (fun p => p.2.link) =
          ord.map (fun p => p.2.link) := by
        rw [List.map_map]
        rfl
      have hnd' : ((flattenLessons c').map (fun p => p.2.link)).Nodup := by
        refine ((hperm'.map (fun p => p.2.link)).nodup_iff).mpr ?_
        rw [hlinkmap]
        exact hnd
      have hordmem : ∀ p ∈ flat, p ∈ ord := fun p hp => hpermOF.mem_iff.mpr hp
      have hmem0 : ∀ p ∈ flat, m0 p ∈ flattenLessons c' := fun p hp =>
        hperm'.mem_iff.mpr (List.mem_map_of_mem m0 (hordmem p hp))
      have hiff : ∀ L, (∃ p ∈ flat, p.2.link = L) ↔
          (∃ p ∈ flattenLessons c', p.2.link = L) := by
        intro L
        have hml : ∀ (X : List (Nat × Lesson)),
            (∃ p ∈ X, p.2.link = L) ↔ L ∈ X.map (fun p => p.2.link) := by
          intro X
          rw [List.mem_map]
        rw [hml, hml]
        constructor
        · intro hL
          have h1 : L ∈ ord.map (fun p => p.2.link) :=
            ((hpermOF.map (fun p => p.2.link)).mem_iff).mpr hL
          have h2 : L ∈ (ord.map m0).map (fun p => p.2.link) := by
            rw [hlinkmap]; exact h1
          exact ((hperm'.map (fun p => p.2.link)).mem_iff).mpr h2
        · intro hL
          have h2 : L ∈ (ord.map m0).map (fun p => p.2.link) :=
            ((hperm'.map (fun p => p.2.link)).mem_iff).mp hL
          rw [hlinkmap] at h2
          exact ((hpermOF.map (fun p => p.2.link)).mem_iff).mp h2
      rcases walkChain_head flat flat.length hd with ⟨t0, ht0⟩
      have hhdpred : (fun p : Nat × Lesson => p.2.previous.isNone) hd = true := by
        have : hd ∈ chainHeads flat := by
          rw [hheads]; exact List.mem_singleton_self hd
        exact (List.mem_filter.mp this).2
      have hfilter_ord : ord.filter (fun p => p.2.previous.isNone) = [hd] := by
        rw [horddef, ht0, List.filter_cons_of_pos (by exact hhdpred)]
        congr 1
        rw [List.filter_eq_nil_iff]
        intro q hq hqpred
        have hqord : q ∈ ord := by rw [horddef, ht0]; exact List.mem_cons_of_mem hd hq
        have hqflat : q ∈ flat := hsub q hqord
        have hqheads : q ∈ chainHeads flat := List.mem_filter.mpr ⟨hqflat, hqpred⟩
        rw [hheads] at hqheads
        have hqhd : q = hd := List.mem_singleton.mp hqheads
        have : ord.Nodup := hond
        rw [horddef, ht0] at this
        exact (List.nodup_cons.mp this).1 (hqhd ▸ hq)
      have hheads' : chainHeads (flattenLessons c') = [m0 hd] := by
        have hp1 : (chainHeads (flattenLessons c')).Perm
            ((ord.map m0).filter (fun p => p.2.previous.isNone)) :=
          hperm'.filter _
        have hp2 : (ord.map m0).filter (fun p => p.2.previous.isNone) =
            (ord.filter (fun p => p.2.previous.isNone)).map m0 := by
          rw [List.filter_map]
          rfl
        rw [hp2, hfilter_ord] at hp1
        exact List.perm_singleton.mp hp1
      have hlen' : (flattenLessons c').length = flat.length := by
        rw [hperm'.length_eq, List.length_map]
        exact hlen
      have horder' : walkChain (flattenLessons c') (flattenLessons c').length
          (m0 hd) = ord.map m0 := by
        rw [hlen']
        rw [walkChain_map hm2 hmem0 hnd' hiff flat.length hd]
      have hfne' : ¬ (flattenLessons c' = []) := by
        intro h
        rw [h] at hlen'
        simp only [List.length_nil] at hlen'
        exact hnil (List.length_eq_zero.mp hlen'.symm)
      have hcond1 : (ord.map m0).length = (flattenLessons c').length := by
        rw [List.length_map, hperm'.length_eq, List.length_map]
      have hcond2 : ((ord.map m0).map (fun p => p.2.link)).Nodup := by
        rw [hlinkmap]
        exact hnd
      have hkn : used.length ≤ idxs.length := by
        rw [hidef, List.length_append]
        omega
      have hused2 : firstKeys ((ord.map m0).map (fun p => p.1)) =
          List.range used.length := by
        have h1 : (ord.map m0).map (fun p => p.1) =
            (ord.map (fun p => p.1)).map (fun x => idxs.indexOf x) := by
          rw [List.map_map, List.map_map]
          rfl
        have hinj : ∀ a ∈ ord.map (fun p => p.1), ∀ b ∈ ord.map (fun p => p.1),
            idxs.indexOf a = idxs.indexOf b → a = b := by
          intro a ha b hb hab
          rcases List.mem_map.mp ha with ⟨q, hq, rfl⟩
          rcases List.mem_map.mp hb with ⟨r, hr, rfl⟩
          exact indexOf_inj_on_mem (hkeys_idxs q hq) (hkeys_idxs r hr) hab
        rw [h1, firstKeys_map_inj _ _ hinj]
        refine List.ext_getElem (by rw [List.length_map, List.length_range]) ?_
        intro j h1j h2j
        rw [List.getElem_map, List.getElem_range]
        have hj : j < used.length := by simpa using h1j
        have hjlen : j < idxs.length := by omega
        have hjapp : j < (used ++ unused).length := by
          rw [List.length_append]
          omega
        have h2 : idxs.indexOf (idxs[j]) = j :=
          nodup_indexOf_getElem hidxnodup j hjlen
        have h3 : idxs[j] = used[j] := by
          calc idxs[j] = (used ++ unused)[j] := rfl
            _ = used[j] := by
              rw [List.getElem_append]
              exact dif_pos hj
        rw [h3] at h2
        exact h2
      have hmodlen2 : c'.modules.length = idxs.length := by
        rw [hmods, List.length_map]
      have hmodules : (List.range idxs.length).map (fun i =>
          { c'.modules.getD i emptyModule with
              lessons := ((ord.map m0).filter (fun p => p.1 = i)).map
                (fun p => p.2) }) = c'.modules := by
        refine List.ext_getElem (by
          rw [List.length_map, List.length_range, hmodlen2]) ?_
        intro j h1j h2j
        have hj : j < idxs.length := by simpa using h1j
        rw [List.getElem_map, List.getElem_range]
        have hcj : c'.modules[j] = F (idxs[j]) := by
          rw [List.getElem_of_eq hmods, List.getElem_map]
        have hgetd : c'.modules.getD j emptyModule = F (idxs[j]) := by
          rw [List.getD_eq_getElem _ _ h2j, hcj]
        have hfm : (ord.map m0).filter (fun p => p.1 = j) =
            (ord.filter (fun p => idxs.indexOf p.1 = j)).map m0 := by
          rw [List.filter_map]
          rfl
        have hfc : ord.filter (fun p => idxs.indexOf p.1 = j) =
            ord.filter (fun p => p.1 = idxs[j]) := by
          refine List.filter_congr (fun p hp => ?_)
          have hpi : p.1 ∈ idxs := hkeys_idxs p hp
          by_cases hcase : p.1 = idxs[j]
          · rw [hcase]
            simp [nodup_indexOf_getElem hidxnodup j hj]
          · have hneq : ¬ idxs.indexOf p.1 = j := by
              intro he
              apply hcase
              have h4 : idxs.indexOf p.1 < idxs.length :=
                List.indexOf_lt_length.mpr hpi
              have h5 : idxs[idxs.indexOf p.1] = p.1 := List.getElem_indexOf h4
              have h6 : idxs[idxs.indexOf p.1] = idxs[j] := getElem_congr he
              rw [← h5, h6]
            simp [hneq, hcase]
        have hlessons : ((ord.map m0).filter (fun p => p.1 = j)).map
            (fun p => p.2) =
            (ord.filter (fun p => p.1 = idxs[j])).map (fun p => p.2) := by
          rw [hfm, hfc, List.map_map]
          rfl
        rw [hgetd, hcj, hlessons]
      have hrebuild : rebuildCourse c' (ord.map m0) = c' := by
        show ({ c' with modules := ((firstKeys ((ord.map m0).map (fun p => p.1)) ++
          (List.range c'.modules.length).filter
            (fun i => ¬ i ∈ firstKeys ((ord.map m0).map (fun p => p.1)))).map
          (fun i => { c'.modules.getD i emptyModule with
              lessons := ((ord.map m0).filter (fun p => p.1 = i)).map
                (fun p => p.2) })) } : CourseWithProgress) = c'
        rw [hused2, hmodlen2, range_filter_split idxs.length used.length hkn,
          hmodules]
      rw [sortCourse, if_neg hfne', hheads']
      simp only [horder']
      rw [if_pos ⟨hcond1, hcond2⟩, hrebuild]
